import Mathlib

/-
Shallow embedding of the procedural-generation and turn-resolution core of a
grid-based roguelike (source files: engine.py, entity.py, procgen.py).

Conventions of the embedding:
* Python `random` draws are modelled by an explicit stream of natural numbers
  (`Rng`); each primitive draw consumes one stream element.  `random.randint`
  and `random.choices` are fallible in Python (they raise on infeasible
  bounds / empty populations), so they return `Option` here.
* numpy tile arrays are modelled as total functions `Int × Int → Tile`
  updated pointwise; a bulk slice assignment becomes an update on the list of
  coordinates the slice denotes.
* `math.sqrt(x ** 2 + y ** 2) < radius` is modelled exactly as
  `x ^ 2 + y ^ 2 < radius ^ 2`, which is equivalent for the integer
  magnitudes a map can hold (float sqrt is correctly rounded).
-/

namespace Roguelike

/-- Tile kinds the generator writes.  Modelled from the spec: `tile_types.py`
is not part of the given sources; the spec's data model names wall (the
initial fill), floor (carved), and down-stairs tiles. -/
inductive Tile where
  | wall
  | floor
  | downStairs
  deriving DecidableEq, Repr

/-- A stream of pseudo-random draws; each primitive random call consumes the
head (an exhausted stream keeps yielding 0, which is just one more stream). -/
abbrev Rng := List Nat

/-- Consume one value from the random stream. -/
def rngNext : Rng → Nat × Rng
  | [] => (0, [])
  | r :: rs => (r, rs)

/-- Modelled from the spec: Python's `random.randint(a, b)` returns a uniform
integer in `[a, b]` inclusive and raises `ValueError` when `a > b`.  The
draw is derived from one stream value `r` as `a + r % (b - a + 1)`. -/
def randint (a b : Int) (r : Nat) : Option Int :=
  if a ≤ b then some (a + (r : Int) % (b - a + 1)) else none

/-- Room shapes (procgen.py `RectangularRoom`, `CircularRoom`, `RingRoom`),
as the tagged variant the spec's design notes call for.  `rect` stores the
two opposite corners exactly as the Python constructor computes them. -/
inductive Room where
  | rect (x1 y1 x2 y2 : Int)
  | circ (x y radius : Int)
  | ring (x y radius inner_radius : Int)
  deriving DecidableEq, Repr

/-- `RectangularRoom.__init__`: corners from position and size. -/
def RectangularRoom (x y width height : Int) : Room :=
  .rect x y (x + width) (y + height)

/-- `CircularRoom.__init__`. -/
def CircularRoom (x y radius : Int) : Room :=
  .circ x y radius

/-- `RingRoom.__init__`: an omitted `inner_radius` defaults to `radius // 2`
(Python floor division; `/` on `Int` is floor division for the positive
divisor 2). -/
def RingRoom (x y radius : Int) (inner_radius : Option Int) : Room :=
  .ring x y radius (inner_radius.getD (radius / 2))

/-- Bounding-box field `x1` (stored for `rect`, `x - radius` for the round
shapes, exactly as the Python constructors assign it). -/
def Room.x1 : Room → Int
  | .rect a _ _ _ => a
  | .circ x _ radius => x - radius
  | .ring x _ radius _ => x - radius

/-- Bounding-box field `y1`. -/
def Room.y1 : Room → Int
  | .rect _ a _ _ => a
  | .circ _ y radius => y - radius
  | .ring _ y radius _ => y - radius

/-- Bounding-box field `x2`. -/
def Room.x2 : Room → Int
  | .rect _ _ a _ => a
  | .circ x _ radius => x + radius
  | .ring x _ radius _ => x + radius

/-- Bounding-box field `y2`. -/
def Room.y2 : Room → Int
  | .rect _ _ _ a => a
  | .circ _ y radius => y + radius
  | .ring _ y radius _ => y + radius

/-- `Room.intersects`: inclusive axis-aligned bounding-box overlap test. -/
def Room.intersects (s other : Room) : Bool :=
  decide (s.x1 ≤ other.x2) && decide (s.x2 ≥ other.x1) &&
    decide (s.y1 ≤ other.y2) && decide (s.y2 ≥ other.y1)

/-- `center`: arithmetic mean truncated toward zero for rectangles (Python
`int((x1 + x2) / 2)`), the stored center for the round shapes. -/
def Room.center : Room → Int × Int
  | .rect x1 y1 x2 y2 => ((x1 + x2).tdiv 2, (y1 + y2).tdiv 2)
  | .circ x y _ => (x, y)
  | .ring x y _ _ => (x, y)

/-- `place_player_coordinate`: the rectangle uses its center, the circle its
center, the ring a point shifted up out of the excluded core. -/
def Room.place_player_coordinate : Room → Int × Int
  | .rect x1 y1 x2 y2 => ((x1 + x2).tdiv 2, (y1 + y2).tdiv 2)
  | .circ x y _ => (x, y)
  | .ring x y radius inner_radius =>
      (x, y - inner_radius - (radius - inner_radius) / 2)

/-- Inclusive integer range `[a, b]` as a list, empty when `b < a`. -/
def intRange (a b : Int) : List Int :=
  (List.range (b + 1 - a).toNat).map (fun i : Nat => a + (i : Int))

/-- `CircularRoom.inner`: all integer offsets in the `[-radius, radius]`
square whose Euclidean distance from the center is strictly below `radius`,
translated to the center — in the `itertools.product` order (outer loop on
the x offset). -/
def circInner (cx cy radius : Int) : List (Int × Int) :=
  (intRange (-radius) radius).flatMap fun ox =>
    (intRange (-radius) radius).filterMap fun oy =>
      if ox ^ 2 + oy ^ 2 < radius ^ 2 then some (cx + ox, cy + oy) else none

/-- `RingRoom.inner`: the outer circle's enumeration with every tile of the
inner circle's enumeration filtered out. -/
def ringInner (cx cy radius inner_radius : Int) : List (Int × Int) :=
  (circInner cx cy radius).filter fun tile =>
    decide (tile ∉ circInner cx cy inner_radius)

/-- `RectangularRoom.inner` as the coordinate list the numpy slice pair
`[x1+1 : x2, y1+1 : y2]` denotes. -/
def rectInner (x1 y1 x2 y2 : Int) : List (Int × Int) :=
  (intRange (x1 + 1) (x2 - 1)).flatMap fun px =>
    (intRange (y1 + 1) (y2 - 1)).map fun py => (px, py)

/-- The coordinates a room's `inner` area carves to floor. -/
def Room.inner : Room → List (Int × Int)
  | .rect x1 y1 x2 y2 => rectInner x1 y1 x2 y2
  | .circ x y radius => circInner x y radius
  | .ring x y radius inner_radius => ringInner x y radius inner_radius

/-- Entity templates named by procgen.py's weighted tables.  The template
objects themselves live in entity_factories.py, outside the given sources;
only their identities matter to the generator. -/
inductive Template where
  | player
  | orc
  | troll
  | healthPotion
  | confusionScroll
  | lightningScroll
  | fireballScroll
  | sword
  | chainMail
  deriving DecidableEq, Repr

/-- procgen.py `max_items_by_floor`. -/
def max_items_by_floor : List (Int × Int) := [(1, 1), (4, 2)]

/-- procgen.py `max_monsters_by_floor`. -/
def max_monsters_by_floor : List (Int × Int) := [(1, 2), (4, 3), (6, 5)]

/-- procgen.py `item_chances` (a Python dict iterates in insertion order, so
it is an association list here). -/
def item_chances : List (Int × List (Template × Nat)) :=
  [(0, [(.healthPotion, 35)]),
   (2, [(.confusionScroll, 10)]),
   (4, [(.lightningScroll, 25), (.sword, 5)]),
   (6, [(.fireballScroll, 25), (.chainMail, 15)])]

/-- procgen.py `enemy_chances`. -/
def enemy_chances : List (Int × List (Template × Nat)) :=
  [(0, [(.orc, 80)]),
   (3, [(.troll, 15)]),
   (5, [(.troll, 30)]),
   (7, [(.troll, 60)])]

/-- Loop body of `get_max_value_for_floor`: `break` at the first
`floor_minimum` above the floor, otherwise remember the row's value. -/
def maxValueGo : List (Int × Int) → Int → Int → Int
  | [], _, current_value => current_value
  | (floor_minimum, value) :: rest, floor, current_value =>
    if floor < floor_minimum then current_value
    else maxValueGo rest floor value

/-- procgen.py `get_max_value_for_floor`: the value of the last row whose
threshold is at most the floor, starting from 0. -/
def get_max_value_for_floor (max_value_by_floor : List (Int × Int)) (floor : Int) : Int :=
  maxValueGo max_value_by_floor floor 0

/-- Insert-or-overwrite on the insertion-ordered association list modelling a
Python dict: an existing key keeps its position and receives the new value,
a new key is appended at the end. -/
def upsert {α : Type} [DecidableEq α] (m : List (α × Nat)) (k : α) (v : Nat) : List (α × Nat) :=
  match m with
  | [] => [(k, v)]
  | (k', v') :: rest => if k' = k then (k', v) :: rest else (k', v') :: upsert rest k v

/-- First-occurrence lookup in the association list (Python `dict` access /
membership). -/
def weightOf {α : Type} [DecidableEq α] : List (α × Nat) → α → Option Nat
  | [], _ => none
  | (k, v) :: rest, a => if k = a then some v else weightOf rest a

/-- Dict-building loop of `get_entities_at_random`: walk the weighted table
in insertion order, stopping (`break`) at the first key above the floor, and
write every `(entity, weight)` pair of each surviving row into the
accumulator dict in order. -/
def buildChances {α : Type} [DecidableEq α] :
    List (Int × List (α × Nat)) → Int → List (α × Nat) → List (α × Nat)
  | [], _, acc => acc
  | (key, values) :: rest, floor, acc =>
    if floor < key then acc
    else buildChances rest floor (values.foldl (fun m v => upsert m v.1 v.2) acc)

/-- Cumulative-weights selection at the heart of `random.choices`: walk the
(element, weight) pairs and pick the entry whose cumulative-weight interval
contains `r`; callers guarantee `r` is below the total weight, so the
default `d` is never reached. -/
def selectD {α : Type} (d : α) : List (α × Nat) → Nat → α
  | [], _ => d
  | (a, w) :: rest, r => if r < w then a else selectD d rest (r - w)

/-- The `k` weighted draws of `random.choices`, one stream value per draw. -/
def choicesGo {α : Type} (pairs : List (α × Nat)) (d : α) : Nat → Rng → List α × Rng
  | 0, rng => ([], rng)
  | k + 1, rng =>
    let a := selectD d pairs ((rngNext rng).1 % (pairs.map (·.2)).sum)
    let rest := choicesGo pairs d k (rngNext rng).2
    (a :: rest.1, rest.2)

/-- Modelled from the spec and CPython's documented semantics:
`random.choices(population, weights=w, k=k)` raises `IndexError` on an empty
population (`cum_weights[-1]`, even for `k = 0`) and `ValueError` when the
weights do not match the population or their total is not positive;
otherwise it returns `k` independent weighted draws with replacement. -/
def choices {α : Type} (population : List α) (weights : List Nat) (k : Nat) (rng : Rng) :
    Option (List α × Rng) :=
  match population with
  | [] => none
  | d :: _ =>
    if population.length = weights.length ∧ 0 < weights.sum then
      some (choicesGo (population.zip weights) d k rng)
    else none

/-- procgen.py `get_entities_at_random`: build the floor-gated dict, then
draw `number_of_entities` templates weighted by it. -/
def get_entities_at_random {α : Type} [DecidableEq α]
    (weighted_chances_by_floor : List (Int × List (α × Nat)))
    (number_of_entities : Nat) (floor : Int) (rng : Rng) : Option (List α × Rng) :=
  let entity_weighted_chances := buildChances weighted_chances_by_floor floor []
  choices (entity_weighted_chances.map (·.1)) (entity_weighted_chances.map (·.2))
    number_of_entities rng

/-- Driving-axis walk of the integer Bresenham line: the first coordinate
advances by `s₁` every step, the second advances by `s₂` exactly when the
accumulated error term wraps below zero.  `a₁` and `a₂` are the axis deltas
(`a₂ ≤ a₁`), the fuel is the number of driving-axis steps left. -/
def bresLoop (s₁ s₂ a₁ a₂ : Int) : Nat → Int → Int → Int → List (Int × Int)
  | 0, x, y, _ => [(x, y)]
  | n + 1, x, y, e =>
    (x, y) ::
      (if e - 2 * a₂ < 0 then
        bresLoop s₁ s₂ a₁ a₂ n (x + s₁) (y + s₂) (e - 2 * a₂ + 2 * a₁)
      else
        bresLoop s₁ s₂ a₁ a₂ n (x + s₁) y (e - 2 * a₂))

/-- Modelled from the spec: `tcod.los.bresenham` (an external library call)
returns the standard integer Bresenham line between two points, both
endpoints included; the walk takes `max(|dx|, |dy|)` unit steps along the
driving axis with the classic accumulated error term. -/
def bresenham (start finish : Int × Int) : List (Int × Int) :=
  let dx := finish.1 - start.1
  let dy := finish.2 - start.2
  if dy.natAbs ≤ dx.natAbs then
    bresLoop dx.sign dy.sign dx.natAbs dy.natAbs dx.natAbs start.1 start.2 dx.natAbs
  else
    (bresLoop dy.sign dx.sign dy.natAbs dx.natAbs dy.natAbs start.2 start.1 dy.natAbs).map
      fun p => (p.2, p.1)

/-- procgen.py `tunnel_between`: the coin is `random.random() < 0.5`; heads
takes the elbow corner `(end.x, start.y)` (horizontal then vertical), tails
takes `(start.x, end.y)`, and the path is the Bresenham segment from start
to the corner followed by the segment from the corner to the end. -/
def tunnel_between (coin : Bool) (start finish : Int × Int) : List (Int × Int) :=
  let corner := if coin then (finish.1, start.2) else (start.1, finish.2)
  bresenham start corner ++ bresenham corner finish

/-- Two grid points differing by at most one unit in each axis. -/
def adjacent (a b : Int × Int) : Bool :=
  decide ((a.1 - b.1).natAbs ≤ 1) && decide ((a.2 - b.2).natAbs ≤ 1)

/-- Every consecutive pair of the list is `adjacent`. -/
def chainAdj : List (Int × Int) → Bool
  | [] => true
  | [_] => true
  | a :: b :: rest => adjacent a b && chainAdj (b :: rest)

/-- A placed entity: a template clone at a grid position (`Entity.spawn`
clones a template and gives the clone its own coordinates). -/
structure Placed where
  template : Template
  x : Int
  y : Int
  deriving DecidableEq, Repr

/-- Spawn loop of `place_entities`: draw an interior coordinate of the
room's bounding box for each drawn template and spawn it there only when no
existing entity (the player included) already occupies that exact
coordinate; a colliding attempt is dropped silently, with no retry. -/
def spawnLoop (room : Room) (playerPos : Int × Int) :
    List Template → List Placed → Rng → Option (List Placed × Rng)
  | [], spawned, rng => some (spawned, rng)
  | t :: rest, spawned, rng =>
    let r1 := rngNext rng
    let r2 := rngNext r1.2
    (randint (room.x1 + 1) (room.x2 - 1) r1.1).bind fun x =>
      (randint (room.y1 + 1) (room.y2 - 1) r2.1).bind fun y =>
        if playerPos = (x, y) ∨ ∃ e ∈ spawned, e.x = x ∧ e.y = y then
          spawnLoop room playerPos rest spawned r2.2
        else
          spawnLoop room playerPos rest (spawned ++ [⟨t, x, y⟩]) r2.2

/-- procgen.py `place_entities`: draw the monster and item counts from the
floor-capped ranges, draw that many weighted templates of each kind, then
run the spawn loop over `monsters + items`. -/
def place_entities (room : Room) (floor_number : Int) (playerPos : Int × Int)
    (entities : List Placed) (rng : Rng) : Option (List Placed × Rng) :=
  let rm := rngNext rng
  (randint 0 (get_max_value_for_floor max_monsters_by_floor floor_number) rm.1).bind
    fun number_of_monsters =>
      let ri := rngNext rm.2
      (randint 0 (get_max_value_for_floor max_items_by_floor floor_number) ri.1).bind
        fun number_of_items =>
          (get_entities_at_random enemy_chances number_of_monsters.toNat floor_number
              ri.2).bind fun mg =>
            (get_entities_at_random item_chances number_of_items.toNat floor_number
                mg.2).bind fun ig =>
              spawnLoop room playerPos (mg.1 ++ ig.1) entities ig.2

/-- Write `t` at every coordinate of `coords` (a numpy bulk assignment or a
write loop — the resulting array is the same). -/
def writeTiles (tiles : Int × Int → Tile) (coords : List (Int × Int)) (t : Tile) :
    (Int × Int) → Tile :=
  fun p => if p ∈ coords then t else tiles p

/-- The state threaded through a generation loop.  `writes` is a ghost log
of every tile coordinate written (room carving, tunnel carving, stair
placement) kept for the bounds statements.  Modelled from the spec for the
parts living in game_map.py (outside the given sources): a fresh grid is
all wall, `downstairs_location` starts at `(0, 0)` and the entity set holds
only the controlled agent, tracked here as `playerPos` plus the spawned
`entities`. -/
structure GenState where
  tiles : Int × Int → Tile
  playerPos : Int × Int
  entities : List Placed
  downstairs_location : Int × Int
  rooms : List Room
  center_of_last_room : Int × Int
  writes : List (Int × Int)
  rng : Rng

/-- The freshly constructed `GameMap` state at the top of both generators. -/
def initialState (p0 : Int × Int) (rng : Rng) : GenState :=
  { tiles := fun _ => Tile.wall
    playerPos := p0
    entities := []
    downstairs_location := (0, 0)
    rooms := []
    center_of_last_room := (0, 0)
    writes := []
    rng := rng }

/-- Middle of the acceptance body: with the room already carved, either
place the player (first accepted room) or carve a tunnel from the previous
room's center and overwrite the running stair candidate with the new room's
center. -/
def tunnelPhase (playerSpot : Room → Int × Int) (new_room : Room) (st : GenState)
    (tiles1 : Int × Int → Tile) (writes1 : List (Int × Int)) : GenState :=
  match st.rooms.getLast? with
  | none =>
    { st with tiles := tiles1, writes := writes1, playerPos := playerSpot new_room }
  | some prev =>
    let c := rngNext st.rng
    let path := tunnel_between (decide (c.1 % 2 = 0)) prev.center new_room.center
    { st with
        tiles := writeTiles tiles1 path Tile.floor
        writes := writes1 ++ path
        center_of_last_room := new_room.center
        rng := c.2 }

/-- Acceptance body shared by `generate_dungeon` and `test_dungeon`: carve
the room's inner area, run the player/tunnel phase, populate the room, then
write the down-stairs at the stair candidate, record it as the descent
point and append the room to the accepted list. -/
def acceptRoom (playerSpot : Room → Int × Int) (floor : Int) (new_room : Room)
    (st : GenState) : Option GenState :=
  let st1 := tunnelPhase playerSpot new_room st
    (writeTiles st.tiles new_room.inner Tile.floor) (st.writes ++ new_room.inner)
  (place_entities new_room floor st1.playerPos st1.entities st1.rng).bind fun eg =>
    some { st1 with
      entities := eg.1
      rng := eg.2
      tiles := writeTiles st1.tiles [st1.center_of_last_room] Tile.downStairs
      writes := st1.writes ++ [st1.center_of_last_room]
      downstairs_location := st1.center_of_last_room
      rooms := st1.rooms ++ [new_room] }

/-- The overlap gate of both generators: a candidate intersecting any
previously accepted room is discarded (`continue`, consuming only the loop
iteration), otherwise it is accepted. -/
def tryRoom (playerSpot : Room → Int × Int) (floor : Int) (new_room : Room)
    (st : GenState) : Option GenState :=
  if st.rooms.any fun other => new_room.intersects other then some st
  else acceptRoom playerSpot floor new_room st

/-- Candidate draw of `generate_dungeon`: uniform size in
`[room_min_size, room_max_size]` and uniform position keeping the room
fully inside the grid. -/
def drawRectRoom (room_min_size room_max_size W H : Int) (rng : Rng) :
    Option (Room × Rng) :=
  let r1 := rngNext rng
  (randint room_min_size room_max_size r1.1).bind fun room_width =>
    let r2 := rngNext r1.2
    (randint room_min_size room_max_size r2.1).bind fun room_height =>
      let r3 := rngNext r2.2
      (randint 0 (W - room_width - 1) r3.1).bind fun x =>
        let r4 := rngNext r3.2
        (randint 0 (H - room_height - 1) r4.1).bind fun y =>
          some (RectangularRoom x y room_width room_height, r4.2)

/-- Candidate draw of `test_dungeon`: `random.random()` picks the shape
(modelled as one stream draw mod 10: below 6 rectangular, below 9 circular,
else ring, matching the 0.6 / 0.3 / 0.1 split), then the shape's size and
position are drawn as in the source. -/
def drawTestRoom (room_min_size room_max_size W H : Int) (rng : Rng) :
    Option (Room × Rng) :=
  let rt := rngNext rng
  if rt.1 % 10 < 6 then
    drawRectRoom room_min_size room_max_size W H rt.2
  else if rt.1 % 10 < 9 then
    let r1 := rngNext rt.2
    (randint (room_min_size / 2) (room_max_size / 2) r1.1).bind fun radius =>
      let r2 := rngNext r1.2
      (randint radius (W - radius) r2.1).bind fun x =>
        let r3 := rngNext r2.2
        (randint radius (H - radius) r3.1).bind fun y =>
          some (CircularRoom x y radius, r3.2)
  else
    let r1 := rngNext rt.2
    (randint (room_min_size / 2) (room_max_size / 2) r1.1).bind fun radius =>
      let ri := rngNext r1.2
      (randint 1 radius ri.1).bind fun inner_radius =>
        let r2 := rngNext ri.2
        (randint radius (W - radius) r2.1).bind fun x =>
          let r3 := rngNext r2.2
          (randint radius (H - radius) r3.1).bind fun y =>
            some (RingRoom x y radius (some inner_radius), r3.2)

/-- One loop iteration of a generator: draw a candidate, then gate it on
overlap and accept it. -/
def genStep (draw : Rng → Option (Room × Rng)) (playerSpot : Room → Int × Int)
    (floor : Int) (st : GenState) : Option GenState :=
  (draw st.rng).bind fun rg => tryRoom playerSpot floor rg.1 { st with rng := rg.2 }

/-- `max_rooms` iterations of the generation loop. -/
def genLoop (draw : Rng → Option (Room × Rng)) (playerSpot : Room → Int × Int)
    (floor : Int) : Nat → GenState → Option GenState
  | 0, st => some st
  | n + 1, st => (genStep draw playerSpot floor st).bind (genLoop draw playerSpot floor n)

/-- procgen.py `generate_dungeon`: rectangular candidates only; the player
is anchored at the first accepted room's `center`. -/
def generate_dungeon (max_rooms : Nat) (room_min_size room_max_size : Int)
    (map_width map_height floor : Int) (p0 : Int × Int) (rng : Rng) : Option GenState :=
  genLoop (drawRectRoom room_min_size room_max_size map_width map_height) Room.center
    floor max_rooms (initialState p0 rng)

/-- procgen.py `test_dungeon`: the shape-variant generator; the player is
anchored at the first accepted room's `place_player_coordinate`. -/
def test_dungeon (max_rooms : Nat) (room_min_size room_max_size : Int)
    (map_width map_height floor : Int) (p0 : Int × Int) (rng : Rng) : Option GenState :=
  genLoop (drawTestRoom room_min_size room_max_size map_width map_height)
    Room.place_player_coordinate floor max_rooms (initialState p0 rng)

/-- Modelled from the spec: the tcod visibility sweep (`compute_fov` is an
external library call).  A tile is reached within `fuel` steps when it is
the source, or when one of its eight neighbours is reached within one step
fewer and is transparent (an opaque tile can be seen but blocks propagation
beyond itself). -/
def sweep (transparent : Int × Int → Bool) (src : Int × Int) : Nat → (Int × Int) → Bool
  | 0, q => decide (q = src)
  | fuel + 1, q =>
    sweep transparent src fuel q ||
      ([(-1, -1), (-1, 0), (-1, 1), (0, -1), (0, 1), (1, -1), (1, 0), (1, 1)] :
          List (Int × Int)).any fun d =>
        sweep transparent src fuel (q.1 + d.1, q.2 + d.2) &&
          transparent (q.1 + d.1, q.2 + d.2)

/-- The radius-8 sweep `engine.py` requests from the library. -/
def compute_fov (transparent : Int × Int → Bool) (pov : Int × Int)
    (q : Int × Int) : Bool :=
  sweep transparent pov 8 q

/-- The visibility-relevant engine state (the `visible` and `explored`
arrays live in game_map.py, outside the given sources; the spec describes
them as boolean arrays of grid shape). -/
structure EngState where
  transparent : Int × Int → Bool
  playerPos : Int × Int
  visible : Int × Int → Bool
  explored : Int × Int → Bool

/-- engine.py `Engine.update_fov`: `visible[:] = compute_fov(...)` replaces
the whole array by the sweep from the player's position, then
`explored |= visible` unions it into the persistent array. -/
def update_fov (s : EngState) : EngState :=
  { s with
      visible := fun p => compute_fov s.transparent s.playerPos p
      explored := fun p => s.explored p || compute_fov s.transparent s.playerPos p }

/-- One simulated turn for the visibility cycle: the world may move the
player and alter transparency (the actions of the turn), then the engine
refreshes the field of view. -/
def fovTurn (s : EngState) (move : (Int × Int) × ((Int × Int) → Bool)) : EngState :=
  update_fov { s with playerPos := move.1, transparent := move.2 }

/-- A sequence of turns, each ending in a visibility refresh. -/
def runTurns (s : EngState) : List ((Int × Int) × ((Int × Int) → Bool)) → EngState
  | [] => s
  | m :: ms => runTurns (fovTurn s m) ms

/-- Failures an agent action can report (exceptions.py is outside the given
sources): the designated no-op condition `Impossible`, or any other
failure, carried with an opaque payload. -/
inductive ActErr where
  | impossible
  | fatal (msg : Nat)
  deriving DecidableEq, Repr

/-- The per-entity body of `handle_enemy_turns`:
`try: entity.ai.perform() except Impossible: pass` — the no-op condition is
absorbed leaving the state unchanged, anything else propagates. -/
def actOnce {σ : Type} (perform : Nat → σ → Except ActErr σ) (a : Nat) (st : σ) :
    Except ActErr σ :=
  match perform a st with
  | .ok st' => .ok st'
  | .error .impossible => .ok st
  | .error e => .error e

/-- Sequential dispatch over the non-player actors: entities without the
acting capability (`entity.ai` falsy) are skipped. -/
def enemyTurnsGo {σ : Type} (perform : Nat → σ → Except ActErr σ) (hasAi : Nat → Bool) :
    List Nat → σ → Except ActErr σ
  | [], st => .ok st
  | a :: rest, st =>
    if hasAi a then
      match actOnce perform a st with
      | .ok st' => enemyTurnsGo perform hasAi rest st'
      | .error e => .error e
    else enemyTurnsGo perform hasAi rest st

/-- engine.py `Engine.handle_enemy_turns`: every placed actor other than
the controlled one acts once per cycle (`set(actors) - {player}`). -/
def handle_enemy_turns {σ : Type} (perform : Nat → σ → Except ActErr σ)
    (hasAi : Nat → Bool) (player : Nat) (actors : List Nat) (st : σ) : Except ActErr σ :=
  enemyTurnsGo perform hasAi (actors.filter fun a => decide (a ≠ player)) st

/-- Loop invariant for the stair bookkeeping of the generators: before any
room is accepted everything is in its initial state; with exactly one
accepted room the stair candidate still holds the initial `(0, 0)`; from
the second accepted room on, the candidate, the recorded descent point and
a down-stairs tile all sit at the last accepted room's center. -/
def stairsInv (st : GenState) : Prop :=
  (st.rooms = [] → st.downstairs_location = (0, 0) ∧ st.center_of_last_room = (0, 0) ∧
    st.entities = [] ∧ ∀ p, st.tiles p = Tile.wall) ∧
  (st.rooms.length = 1 → st.downstairs_location = (0, 0) ∧
    st.center_of_last_room = (0, 0)) ∧
  (2 ≤ st.rooms.length → ∃ last, st.rooms.getLast? = some last ∧
    st.center_of_last_room = last.center ∧ st.downstairs_location = last.center ∧
    st.tiles last.center = Tile.downStairs)

/-- A coordinate lying on the `W × H` grid. -/
def inBounds (W H : Int) (p : Int × Int) : Prop :=
  0 ≤ p.1 ∧ p.1 < W ∧ 0 ≤ p.2 ∧ p.2 < H

/-- A room whose placement keeps all its carving and its center on the
grid: rectangles sit fully inside the grid, round shapes have a positive
radius and their center at least `radius` away from every edge. -/
def roomOK (W H : Int) : Room → Prop
  | .rect x1 y1 x2 y2 => 0 ≤ x1 ∧ x1 ≤ x2 ∧ x2 ≤ W - 1 ∧ 0 ≤ y1 ∧ y1 ≤ y2 ∧ y2 ≤ H - 1
  | .circ x y radius => 1 ≤ radius ∧ radius ≤ x ∧ x + radius ≤ W ∧ radius ≤ y ∧ y + radius ≤ H
  | .ring x y radius _ =>
      1 ≤ radius ∧ radius ≤ x ∧ x + radius ≤ W ∧ radius ≤ y ∧ y + radius ≤ H

/-- Loop invariant for the bounds statements: every logged write is on the
grid, every accepted room is placed on the grid, and the running stair
candidate is on the grid. -/
def boundsInv (W H : Int) (st : GenState) : Prop :=
  (∀ p ∈ st.writes, inBounds W H p) ∧ (∀ room ∈ st.rooms, roomOK W H room) ∧
    inBounds W H st.center_of_last_room

/-- First-defined alternative of two optional values. -/
def firstSome (o o' : Option Nat) : Option Nat :=
  match o with
  | some w => some w
  | none => o'

theorem weightOf_append {α : Type} [DecidableEq α] (l₁ l₂ : List (α × Nat)) (a : α) :
    weightOf (l₁ ++ l₂) a = firstSome (weightOf l₁ a) (weightOf l₂ a) := by
  induction l₁ with
  | nil => simp [weightOf, firstSome]
  | cons e rest ih =>
    obtain ⟨k, v⟩ := e
    by_cases h : k = a <;> simp [weightOf, h, firstSome, ih]

theorem weightOf_upsert {α : Type} [DecidableEq α] (m : List (α × Nat)) (k : α) (v : Nat)
    (a : α) : weightOf (upsert m k v) a = if k = a then some v else weightOf m a := by
  induction m with
  | nil => simp [upsert, weightOf]
  | cons e rest ih =>
    obtain ⟨k', v'⟩ := e
    by_cases hk : k' = k
    · subst hk
      by_cases ha : k' = a <;> simp [upsert, weightOf, ha]
    · by_cases ha : k' = a
      · subst ha
        have : ¬ k = k' := fun h => hk h.symm
        simp [upsert, weightOf, hk, this]
      · simp [upsert, weightOf, hk, ha, ih]

/-- Folding a row of `(entity, weight)` pairs into the dict makes the last
occurrence of a key in the row win, and otherwise keeps the accumulator. -/
theorem weightOf_foldl_upsert {α : Type} [DecidableEq α] (entries : List (α × Nat))
    (acc : List (α × Nat)) (a : α) :
    weightOf (entries.foldl (fun m v => upsert m v.1 v.2) acc) a =
      firstSome (weightOf entries.reverse a) (weightOf acc a) := by
  induction entries generalizing acc with
  | nil => simp [weightOf, firstSome]
  | cons e rest ih =>
    obtain ⟨k, v⟩ := e
    rw [List.foldl_cons, ih]
    simp only [List.reverse_cons]
    rw [weightOf_append]
    by_cases h : k = a
    · cases hr : weightOf rest.reverse a <;>
        simp [weightOf_upsert, firstSome, weightOf, hr, h]
    · cases hr : weightOf rest.reverse a <;>
        simp [weightOf_upsert, firstSome, weightOf, hr, h]

/-- The `break` in the dict-building loop keeps exactly the longest table
prefix whose keys are all at most the floor. -/
theorem buildChances_eq_takeWhile {α : Type} [DecidableEq α]
    (table : List (Int × List (α × Nat))) (floor : Int) (acc : List (α × Nat)) :
    buildChances table floor acc =
      (table.takeWhile fun row => decide (row.1 ≤ floor)).foldl
        (fun m row => row.2.foldl (fun m v => upsert m v.1 v.2) m) acc := by
  induction table generalizing acc with
  | nil => simp [buildChances]
  | cons row rest ih =>
    obtain ⟨key, values⟩ := row
    by_cases h : floor < key
    · have : ¬ key ≤ floor := by omega
      simp [buildChances, h, List.takeWhile_cons, this]
    · have : key ≤ floor := by omega
      simp [buildChances, h, List.takeWhile_cons, this, ih]

/-- On a table whose keys appear in ascending order the kept prefix is the
set of all qualifying rows. -/
theorem takeWhile_eq_filter_of_sorted {α : Type}
    (table : List (Int × List (α × Nat))) (floor : Int)
    (hs : table.Pairwise fun a b => a.1 ≤ b.1) :
    (table.takeWhile fun row => decide (row.1 ≤ floor)) =
      (table.filter fun row => decide (row.1 ≤ floor)) := by
  induction table with
  | nil => simp
  | cons row rest ih =>
    rw [List.pairwise_cons] at hs
    by_cases h : row.1 ≤ floor
    · simp [List.takeWhile_cons, List.filter_cons, h, ih hs.2]
    · have hnil : (rest.filter fun r => decide (r.1 ≤ floor)) = [] := by
        rw [List.filter_eq_nil_iff]
        intro b hb
        have := hs.1 b hb
        simp only [decide_eq_true_eq]
        omega
      simp [List.takeWhile_cons, List.filter_cons, h, hnil]

theorem selectD_mem {α : Type} (d : α) (pairs : List (α × Nat)) (r : Nat)
    (h : r < (pairs.map (·.2)).sum) : selectD d pairs r ∈ pairs.map (·.1) := by
  induction pairs generalizing r with
  | nil => simp at h
  | cons e rest ih =>
    obtain ⟨a, w⟩ := e
    by_cases hr : r < w
    · simp [selectD, hr]
    · simp only [List.map_cons, List.sum_cons] at h
      have : r - w < (rest.map (·.2)).sum := by omega
      simp [selectD, hr, ih _ this]

theorem choicesGo_length {α : Type} (pairs : List (α × Nat)) (d : α) (k : Nat) (rng : Rng) :
    (choicesGo pairs d k rng).1.length = k := by
  induction k generalizing rng with
  | zero => simp [choicesGo]
  | succ k ih => simp [choicesGo, ih]

theorem choicesGo_mem {α : Type} (pairs : List (α × Nat)) (d : α) (k : Nat) (rng : Rng)
    (hw : 0 < (pairs.map (·.2)).sum) :
    ∀ a ∈ (choicesGo pairs d k rng).1, a ∈ pairs.map (·.1) := by
  induction k generalizing rng with
  | zero => simp [choicesGo]
  | succ k ih =>
    intro a ha
    simp only [choicesGo, List.mem_cons] at ha
    rcases ha with ha | ha
    · cases ha
      exact selectD_mem _ _ _ (Nat.mod_lt _ hw)
    · exact ih _ _ ha

theorem zip_map_fst_snd {α β : Type} (l : List (α × β)) :
    (l.map (·.1)).zip (l.map (·.2)) = l := by
  induction l with
  | nil => rfl
  | cons e rest ih => simp [ih]

/-- C9: for every center, radius and inner radius, a tile is in the ring
room's inner enumeration exactly when it is in the outer circle's inner
enumeration and not in the inner circle's, and concretely for radius 5 and
inner radius 2 at the origin the enumerated set is the set difference of the
two disc point sets. -/
theorem ring_inner_is_disc_difference :
    (∀ cx cy radius inner_radius t,
        t ∈ ringInner cx cy radius inner_radius ↔
          t ∈ circInner cx cy radius ∧ t ∉ circInner cx cy inner_radius) ∧
    (ringInner 0 0 5 2).toFinset =
      (circInner 0 0 5).toFinset \ (circInner 0 0 2).toFinset := by
  constructor
  · intro cx cy radius inner_radius t
    simp [ringInner, List.mem_filter]
  · ext t
    simp [ringInner, List.mem_filter]

/-- Weight lookup after folding whole rows equals the last-occurrence weight
among the rows' concatenated entries, falling back to the accumulator. -/
theorem weightOf_foldl_rows {α : Type} [DecidableEq α] (rows : List (Int × List (α × Nat)))
    (acc : List (α × Nat)) (a : α) :
    weightOf (rows.foldl (fun m row => row.2.foldl (fun m v => upsert m v.1 v.2) m) acc) a =
      firstSome (weightOf (rows.flatMap (·.2)).reverse a) (weightOf acc a) := by
  induction rows generalizing acc with
  | nil => simp [firstSome, weightOf]
  | cons row rest ih =>
    rw [List.foldl_cons, ih, weightOf_foldl_upsert]
    simp only [List.flatMap_cons, List.reverse_append]
    rw [weightOf_append]
    cases weightOf (rest.flatMap (·.2)).reverse a <;> simp [firstSome]

/-- C4 (amended): the collapsed mapping holds exactly the entries of the
longest prefix of table rows (in insertion order) whose thresholds are at
most the floor — on a threshold-ascending table, such as every table in the
repository, that prefix is every qualifying row — with the weight of a
template equal to its last occurrence among those entries (later entries
overwrite earlier ones), and the draws are weighted by this mapping.  The
claim's unrestricted "every table row whose threshold ≤ floor" fails because
the loop breaks at the first row above the floor. -/
theorem entities_at_random_collapse {α : Type} [DecidableEq α]
    (table : List (Int × List (α × Nat))) (floor : Int) (k : Nat) (rng : Rng) (a : α) :
    (buildChances table floor [] =
      (table.takeWhile fun row => decide (row.1 ≤ floor)).foldl
        (fun m row => row.2.foldl (fun m v => upsert m v.1 v.2) m) []) ∧
    (weightOf (buildChances table floor []) a =
      weightOf ((table.takeWhile fun row => decide (row.1 ≤ floor)).flatMap (·.2)).reverse a) ∧
    (table.Pairwise (fun r s => r.1 ≤ s.1) →
      (table.takeWhile fun row => decide (row.1 ≤ floor)) =
        table.filter fun row => decide (row.1 ≤ floor)) ∧
    (get_entities_at_random table k floor rng =
      choices ((buildChances table floor []).map (·.1))
        ((buildChances table floor []).map (·.2)) k rng) := by
  refine ⟨buildChances_eq_takeWhile table floor [], ?_,
    takeWhile_eq_filter_of_sorted table floor, rfl⟩
  rw [buildChances_eq_takeWhile, weightOf_foldl_rows]
  cases weightOf ((table.takeWhile fun row => decide (row.1 ≤ floor)).flatMap (·.2)).reverse a <;>
    simp [firstSome, weightOf]

/-- C4 counterexample: with the out-of-order table `{5: [(1, 10)], 0: [(2, 80)]}`
and floor 0, the row with threshold 0 qualifies (`0 ≤ 0`) yet the collapsed
mapping is empty, so it does not contain that row's entry `(2, 80)` as the
claim requires. -/
theorem entities_at_random_collapse_cex :
    (0 : Int) ≤ 0 ∧
    buildChances [((5 : Int), [((1 : Nat), 10)]), (0, [(2, 80)])] 0 [] = [] ∧
    weightOf (buildChances [((5 : Int), [((1 : Nat), 10)]), (0, [(2, 80)])] 0 []) 2 ≠
      some 80 := by
  decide

/-- Witness for `entities_at_random_collapse` at the repository's (sorted)
item table. -/
theorem entities_at_random_collapse_witness :
    (item_chances.takeWhile fun row => decide (row.1 ≤ 4)) =
      item_chances.filter fun row => decide (row.1 ≤ 4) :=
  (entities_at_random_collapse item_chances 4 0 [] Template.sword).2.2.1 (by decide)

/-- C5 (amended): `get_entities_at_random` fails exactly when the collapsed
table is empty or its total weight is zero — for any requested count,
including 0, because `random.choices` evaluates `cum_weights[-1]` before
looking at `k` — and otherwise returns a list of length exactly `count`
whose members all come from the collapsed table's templates. -/
theorem entities_at_random_count_and_failure {α : Type} [DecidableEq α]
    (table : List (Int × List (α × Nat))) (k : Nat) (floor : Int) (rng : Rng) :
    (buildChances table floor [] = [] ∨ ((buildChances table floor []).map (·.2)).sum = 0 →
      get_entities_at_random table k floor rng = none) ∧
    (buildChances table floor [] ≠ [] ∧ 0 < ((buildChances table floor []).map (·.2)).sum →
      ∃ l g, get_entities_at_random table k floor rng = some (l, g) ∧ l.length = k ∧
        ∀ a ∈ l, a ∈ (buildChances table floor []).map (·.1)) := by
  constructor
  · intro h
    unfold get_entities_at_random
    cases hc : buildChances table floor [] with
    | nil => simp [choices]
    | cons e rest =>
      rw [hc] at h
      rcases h with h | h
      · cases h
      · simp only [choices, List.map_cons]
        rw [if_neg]
        simp only [List.map_cons, List.sum_cons] at h
        rintro ⟨-, hlt⟩
        simp only [List.sum_cons] at hlt
        omega
  · rintro ⟨hne, hpos⟩
    unfold get_entities_at_random
    cases hc : buildChances table floor [] with
    | nil => exact absurd hc hne
    | cons e rest =>
      rw [hc] at hpos
      refine ⟨(choicesGo (e :: rest) e.1 k rng).1, (choicesGo (e :: rest) e.1 k rng).2,
        ?_, choicesGo_length _ _ _ _, ?_⟩
      · simp only [choices, List.map_cons]
        rw [if_pos ⟨by simp, by simpa using hpos⟩]
        rw [show ((e.1 :: rest.map (·.1)).zip (e.2 :: rest.map (·.2))) = e :: rest from
          zip_map_fst_snd (e :: rest)]
      · intro a ha
        have := choicesGo_mem (e :: rest) e.1 k rng (by simpa using hpos) a ha
        simpa using this

/-- C5 counterexample: with the empty table and count 0 the combined table
is empty and the call fails (`IndexError` in Python, `none` here), where the
claim requires it to return the empty list. -/
theorem entities_at_random_count_cex :
    buildChances ([] : List (Int × List (Nat × Nat))) 0 [] = [] ∧
    get_entities_at_random ([] : List (Int × List (Nat × Nat))) 0 0 [] = none := by
  decide

/-- Witness for `entities_at_random_count_and_failure` at the spec's concrete
example `{0: [(A, 80)]}`, count 5, floor 0. -/
theorem entities_at_random_count_witness :
    ∃ l g, get_entities_at_random [((0 : Int), [((0 : Nat), 80)])] 5 0 [] = some (l, g) ∧
      l.length = 5 ∧
      ∀ a ∈ l, a ∈ (buildChances [((0 : Int), [((0 : Nat), 80)])] 0 []).map (·.1) :=
  (entities_at_random_count_and_failure [((0 : Int), [((0 : Nat), 80)])] 5 0 []).2
    (by decide)

theorem bresLoop_ne_nil (s₁ s₂ a₁ a₂ : Int) (n : Nat) (x y e : Int) :
    bresLoop s₁ s₂ a₁ a₂ n x y e ≠ [] := by
  cases n <;> simp [bresLoop]

theorem bresLoop_head (s₁ s₂ a₁ a₂ : Int) (n : Nat) (x y e : Int) :
    (bresLoop s₁ s₂ a₁ a₂ n x y e).head? = some (x, y) := by
  cases n <;> simp [bresLoop]

theorem getLastD_irrel {α : Type} (l : List α) (d d' : α) (h : l ≠ []) :
    l.getLastD d = l.getLastD d' := by
  cases l with
  | nil => exact absurd rfl h
  | cons a rest => rw [List.getLastD_cons, List.getLastD_cons]

theorem head?_append_some {α : Type} {l₁ : List α} (l₂ : List α) {a : α}
    (h : l₁.head? = some a) : (l₁ ++ l₂).head? = some a := by
  cases l₁ with
  | nil => cases h
  | cons b rest => exact h

theorem getLastD_append_right {α : Type} (l₁ l₂ : List α) (d : α) (h : l₂ ≠ []) :
    (l₁ ++ l₂).getLastD d = l₂.getLastD d := by
  induction l₁ with
  | nil => rfl
  | cons a rest ih =>
    rw [List.cons_append, List.getLastD_cons, getLastD_irrel _ a d (by simp [h]), ih]

theorem getLastD_map_swap (l : List (Int × Int)) (d : Int × Int) :
    (l.map fun p => (p.2, p.1)).getLastD (d.2, d.1) =
      ((l.getLastD d).2, (l.getLastD d).1) := by
  induction l generalizing d with
  | nil => rfl
  | cons a rest ih =>
    simp only [List.map_cons, List.getLastD_cons]
    exact ih a

theorem adjacent_swap (p q : Int × Int) :
    adjacent (p.2, p.1) (q.2, q.1) = adjacent p q := by
  simp [adjacent, Bool.and_comm]

theorem chainAdj_cons {a b : Int × Int} {l : List (Int × Int)} (h : l.head? = some b)
    (hab : adjacent a b = true) (hc : chainAdj l = true) : chainAdj (a :: l) = true := by
  cases l with
  | nil => cases h
  | cons c rest =>
    obtain rfl : c = b := by simpa using h
    simp [chainAdj, hab, hc]

theorem chainAdj_map_swap (l : List (Int × Int)) :
    chainAdj (l.map fun p => (p.2, p.1)) = chainAdj l := by
  induction l with
  | nil => rfl
  | cons a rest ih =>
    cases rest with
    | nil => rfl
    | cons b t =>
      simp only [List.map_cons, chainAdj, adjacent_swap]
      rw [show ((b.2, b.1) :: t.map fun p => (p.2, p.1)) =
        (b :: t).map fun p => (p.2, p.1) from rfl, ih]

theorem chainAdj_append (l₁ l₂ : List (Int × Int)) (h₁ : chainAdj l₁ = true)
    (h₂ : chainAdj l₂ = true) (hne : l₁ ≠ [])
    (hlink : ∀ b, l₂.head? = some b → adjacent (l₁.getLastD b) b = true) :
    chainAdj (l₁ ++ l₂) = true := by
  induction l₁ with
  | nil => exact absurd rfl hne
  | cons a rest ih =>
    cases rest with
    | nil =>
      cases l₂ with
      | nil => simp [chainAdj]
      | cons b t =>
        refine chainAdj_cons rfl ?_ h₂
        simpa [List.getLastD_cons] using hlink b rfl
    | cons a' rest' =>
      have hsplit : adjacent a a' = true ∧ chainAdj (a' :: rest') = true := by
        simpa [chainAdj] using h₁
      rw [List.cons_append]
      refine chainAdj_cons ?_ hsplit.1 (ih hsplit.2 (by simp) ?_)
      · rfl
      · intro b hb
        have hlk := hlink b hb
        rw [List.getLastD_cons] at hlk
        rwa [getLastD_irrel _ b a (by simp)]

theorem sign_natAbs_le_one (a : Int) : a.sign.natAbs ≤ 1 := by
  rcases Int.lt_trichotomy a 0 with h | h | h
  · rw [Int.sign_eq_neg_one_of_neg h]; decide
  · rw [h]; decide
  · rw [Int.sign_eq_one_of_pos h]; decide

theorem chainAdj_bresLoop (s₁ s₂ a₁ a₂ : Int) (hs₁ : s₁.natAbs ≤ 1)
    (hs₂ : s₂.natAbs ≤ 1) (n : Nat) :
    ∀ (x y e : Int), chainAdj (bresLoop s₁ s₂ a₁ a₂ n x y e) = true := by
  induction n with
  | zero => intro x y e; simp [bresLoop, chainAdj]
  | succ n ih =>
    intro x y e
    have e1 : x - (x + s₁) = -s₁ := by ring
    have e2 : y - (y + s₂) = -s₂ := by ring
    have hadj1 : adjacent (x, y) (x + s₁, y + s₂) = true := by
      simp [adjacent, e1, e2, Int.natAbs_neg, hs₁, hs₂]
    have hadj2 : adjacent (x, y) (x + s₁, y) = true := by
      simp [adjacent, e1, Int.natAbs_neg, hs₁]
    simp only [bresLoop]
    by_cases h : e - 2 * a₂ < 0
    · rw [if_pos h]
      exact chainAdj_cons (bresLoop_head ..) hadj1 (ih ..)
    · rw [if_neg h]
      exact chainAdj_cons (bresLoop_head ..) hadj2 (ih ..)

/-- Error-term invariant of the Bresenham walk: the last point has advanced
`n` driving steps and some `v` secondary steps, with the final error again
in `[0, 2·a₁)`. -/
theorem bresLoop_last (s₁ s₂ a₁ a₂ : Int) (ha₂ : 0 ≤ a₂) (h21 : a₂ ≤ a₁) (n : Nat) :
    ∀ (x y e : Int), 0 ≤ e → e < 2 * a₁ →
      ∃ v : Nat, (bresLoop s₁ s₂ a₁ a₂ n x y e).getLastD (0, 0) =
          (x + n * s₁, y + v * s₂) ∧
        0 ≤ e - 2 * a₂ * n + 2 * a₁ * v ∧ e - 2 * a₂ * n + 2 * a₁ * v < 2 * a₁ := by
  induction n with
  | zero =>
    intro x y e he0 he1
    exact ⟨0, by simp [bresLoop], by simpa using he0, by simpa using he1⟩
  | succ n ih =>
    intro x y e he0 he1
    simp only [bresLoop, List.getLastD_cons]
    by_cases h : e - 2 * a₂ < 0
    · rw [if_pos h]
      obtain ⟨v, hl, hb0, hb1⟩ :=
        ih (x + s₁) (y + s₂) (e - 2 * a₂ + 2 * a₁) (by omega) (by omega)
      refine ⟨v + 1, ?_, ?_, ?_⟩
      · rw [getLastD_irrel _ _ (0, 0) (bresLoop_ne_nil _ _ _ _ _ _ _ _), hl]
        congr 1 <;> push_cast <;> ring
      · push_cast
        push_cast at hb0
        linarith
      · push_cast
        push_cast at hb1
        linarith
    · rw [if_neg h]
      obtain ⟨v, hl, hb0, hb1⟩ := ih (x + s₁) y (e - 2 * a₂) (by omega) (by omega)
      refine ⟨v, ?_, ?_, ?_⟩
      · rw [getLastD_irrel _ _ (0, 0) (bresLoop_ne_nil _ _ _ _ _ _ _ _), hl]
        congr 1 <;> push_cast <;> ring
      · push_cast
        push_cast at hb0
        linarith
      · push_cast
        push_cast at hb1
        linarith

/-- A full driving-axis walk of `|d₁|` steps lands exactly on the target
displaced by `(d₁, d₂)`. -/
theorem bresLoop_endpoint (d₁ d₂ : Int) (h : d₂.natAbs ≤ d₁.natAbs) (x y : Int) :
    (bresLoop d₁.sign d₂.sign d₁.natAbs d₂.natAbs d₁.natAbs x y d₁.natAbs).getLastD (0, 0) =
      (x + d₁, y + d₂) := by
  rcases Nat.eq_zero_or_pos d₁.natAbs with hz | hpos
  · have h2 : d₂.natAbs = 0 := by omega
    have e1 : d₁ = 0 := by omega
    have e2 : d₂ = 0 := by omega
    rw [hz]
    simp [bresLoop, e1, e2]
  · obtain ⟨v, hl, hb0, hb1⟩ :=
      bresLoop_last d₁.sign d₂.sign d₁.natAbs d₂.natAbs (by omega) (by omega)
        d₁.natAbs x y d₁.natAbs (by omega) (by omega)
    have hA : (0 : Int) < d₁.natAbs := by omega
    have heq : (d₁.natAbs : Int) - 2 * d₂.natAbs * d₁.natAbs + 2 * d₁.natAbs * v =
        (d₁.natAbs : Int) * (1 - 2 * d₂.natAbs + 2 * v) := by ring
    have ht2 : (1 : Int) - 2 * d₂.natAbs + 2 * v < 2 := by
      refine lt_of_mul_lt_mul_left ?_ hA.le
      rw [← heq]
      linarith
    have ht0 : (0 : Int) ≤ 1 - 2 * d₂.natAbs + 2 * v := by
      by_contra hneg
      push_neg at hneg
      have := mul_neg_of_pos_of_neg hA hneg
      rw [← heq] at this
      linarith
    have hveq : ((v : Int)) = d₂.natAbs := by omega
    have hx : (d₁.natAbs : Int) * d₁.sign = d₁ := by
      rw [mul_comm]
      exact Int.sign_mul_natAbs _
    have hy : (d₂.natAbs : Int) * d₂.sign = d₂ := by
      rw [mul_comm]
      exact Int.sign_mul_natAbs _
    rw [hl, hveq, Prod.ext_iff]
    constructor
    · show x + (d₁.natAbs : Int) * d₁.sign = x + d₁
      rw [hx]
    · show y + (d₂.natAbs : Int) * d₂.sign = y + d₂
      rw [hy]

theorem bresenham_ne_nil (p q : Int × Int) : bresenham p q ≠ [] := by
  simp only [bresenham]
  split
  · exact bresLoop_ne_nil _ _ _ _ _ _ _ _
  · intro hc
    rw [List.map_eq_nil_iff] at hc
    exact bresLoop_ne_nil _ _ _ _ _ _ _ _ hc

theorem bresenham_head (p q : Int × Int) : (bresenham p q).head? = some p := by
  simp only [bresenham]
  split
  · exact bresLoop_head ..
  · rw [List.head?_map, bresLoop_head]
    rfl

theorem bresenham_last (p q : Int × Int) : (bresenham p q).getLastD (0, 0) = q := by
  simp only [bresenham]
  split
  case isTrue hle =>
    rw [bresLoop_endpoint _ _ hle]
    simp
  case isFalse hgt =>
    rw [getLastD_map_swap _ (0, 0), bresLoop_endpoint _ _ (by omega)]
    simp

theorem chainAdj_bresenham (p q : Int × Int) : chainAdj (bresenham p q) = true := by
  simp only [bresenham]
  split
  · exact chainAdj_bresLoop _ _ _ _ (sign_natAbs_le_one _) (sign_natAbs_le_one _) _ _ _ _
  · rw [chainAdj_map_swap]
    exact chainAdj_bresLoop _ _ _ _ (sign_natAbs_le_one _) (sign_natAbs_le_one _) _ _ _ _

/-- C8: the tunnel takes elbow `(end.x, start.y)` on one side of the coin
and `(start.x, end.y)` on the other (the coin abstracts the fair
`random.random() < 0.5` draw), concatenating the Bresenham segment from
start to the corner with the one from the corner to the end, so the corner
closes the first segment and opens the second (appearing twice); for every
pair of endpoints the path starts exactly at the start, ends exactly at the
end, and each consecutive pair of points differs by at most one unit per
axis. -/
theorem tunnel_between_spec (coin : Bool) (start finish : Int × Int) :
    tunnel_between true start finish =
      bresenham start (finish.1, start.2) ++ bresenham (finish.1, start.2) finish ∧
    tunnel_between false start finish =
      bresenham start (start.1, finish.2) ++ bresenham (start.1, finish.2) finish ∧
    (tunnel_between coin start finish).head? = some start ∧
    (tunnel_between coin start finish).getLastD (0, 0) = finish ∧
    chainAdj (tunnel_between coin start finish) = true ∧
    (bresenham start (if coin then (finish.1, start.2) else (start.1, finish.2))).getLastD
        (0, 0) = (if coin then (finish.1, start.2) else (start.1, finish.2)) ∧
    (bresenham (if coin then (finish.1, start.2) else (start.1, finish.2)) finish).head? =
      some (if coin then (finish.1, start.2) else (start.1, finish.2)) := by
  refine ⟨rfl, rfl, ?_, ?_, ?_, bresenham_last .., bresenham_head ..⟩
  · exact head?_append_some _ (bresenham_head ..)
  · rw [show tunnel_between coin start finish =
        bresenham start (if coin then (finish.1, start.2) else (start.1, finish.2)) ++
          bresenham (if coin then (finish.1, start.2) else (start.1, finish.2)) finish
      from rfl]
    rw [getLastD_append_right _ _ _ (bresenham_ne_nil _ _)]
    exact bresenham_last ..
  · refine chainAdj_append _ _ (chainAdj_bresenham ..) (chainAdj_bresenham ..)
      (bresenham_ne_nil _ _) ?_
    intro b hb
    rw [bresenham_head] at hb
    cases hb
    rw [getLastD_irrel _ _ (0, 0) (bresenham_ne_nil _ _), bresenham_last]
    simp [adjacent]

/-- C1: after every `update_fov` the visible array equals exactly the
radius-8 sweep from the controlled agent's position through transparent
tiles, fully replacing the previous array (the new `visible` does not
depend on the old `visible` or `explored`); `explored` becomes its old
value unioned with the new `visible`; hence over any sequence of turns
`explored` is monotonically non-decreasing, and immediately after each
refresh every visible cell is explored. -/
theorem update_fov_spec :
    (∀ (s : EngState) (p : Int × Int),
      (update_fov s).visible p = compute_fov s.transparent s.playerPos p) ∧
    (∀ s s' : EngState, s.transparent = s'.transparent → s.playerPos = s'.playerPos →
      (update_fov s).visible = (update_fov s').visible) ∧
    (∀ (s : EngState) (p : Int × Int),
      (update_fov s).explored p = (s.explored p || (update_fov s).visible p)) ∧
    (∀ (s : EngState) (p : Int × Int),
      s.explored p = true → (update_fov s).explored p = true) ∧
    (∀ (s : EngState) (p : Int × Int),
      (update_fov s).visible p = true → (update_fov s).explored p = true) ∧
    (∀ (s : EngState) (ms : List ((Int × Int) × ((Int × Int) → Bool))) (p : Int × Int),
      s.explored p = true → (runTurns s ms).explored p = true) := by
  refine ⟨fun s p => rfl, ?_, fun s p => rfl, ?_, ?_, ?_⟩
  · intro s s' ht hp
    simp [update_fov, ht, hp]
  · intro s p h
    simp [update_fov, h]
  · intro s p h
    simp only [update_fov] at h ⊢
    rw [h, Bool.or_true]
  · intro s ms
    induction ms generalizing s with
    | nil => exact fun p h => h
    | cons m rest ih =>
      intro p h
      exact ih _ p (by simp [fovTurn, update_fov, h])

/-- Witness for `update_fov_spec`: a cell explored before the turns is
still explored after one. -/
theorem update_fov_witness :
    (runTurns ⟨fun _ => true, (0, 0), fun _ => false, fun p => decide (p = (3, 3))⟩
      [((1, 1), fun _ => true)]).explored (3, 3) = true :=
  update_fov_spec.2.2.2.2.2 ⟨fun _ => true, (0, 0), fun _ => false, fun p => decide (p = (3, 3))⟩
    [((1, 1), fun _ => true)] (3, 3) (by decide)

theorem enemyTurnsGo_all_impossible {σ : Type} (perform : Nat → σ → Except ActErr σ)
    (hasAi : Nat → Bool) (himp : ∀ a st', perform a st' = .error .impossible) :
    ∀ (l : List Nat) (st : σ), enemyTurnsGo perform hasAi l st = .ok st := by
  intro l
  induction l with
  | nil => intro st; rfl
  | cons a rest ih =>
    intro st
    by_cases h : hasAi a = true
    · simp [enemyTurnsGo, h, actOnce, himp a st, ih]
    · simp [enemyTurnsGo, h, ih]

/-- C7: `handle_enemy_turns` dispatches to each non-player actor with an
acting capability exactly once per cycle (their multiplicity in the
dispatch sequence is one); when every action reports the designated no-op
`Impossible` condition the cycle completes with the state untouched; a
non-`Impossible` failure propagates; and one entity's `Impossible` does not
stop the remaining entities from acting. -/
theorem handle_enemy_turns_spec {σ : Type} (perform : Nat → σ → Except ActErr σ)
    (hasAi : Nat → Bool) :
    (∀ (actors : List Nat) (player a : Nat), actors.Nodup → a ∈ actors → a ≠ player →
      hasAi a = true →
      ((actors.filter fun b => decide (b ≠ player)).filter hasAi).count a = 1) ∧
    (∀ (actors : List Nat) (player : Nat) (st : σ),
      (∀ a st', perform a st' = .error .impossible) →
      handle_enemy_turns perform hasAi player actors st = .ok st) ∧
    (∀ (player a : Nat) (st : σ) (msg : Nat), a ≠ player → hasAi a = true →
      perform a st = .error (.fatal msg) →
      handle_enemy_turns perform hasAi player [a] st = .error (.fatal msg)) ∧
    (∀ (player a : Nat) (rest : List Nat) (st : σ), a ≠ player →
      perform a st = .error .impossible →
      handle_enemy_turns perform hasAi player (a :: rest) st =
        handle_enemy_turns perform hasAi player rest st) := by
  refine ⟨?_, ?_, ?_, ?_⟩
  · intro actors player a hnd ha hap hai
    refine List.count_eq_one_of_mem ((hnd.filter _).filter _) ?_
    rw [List.mem_filter, List.mem_filter]
    exact ⟨⟨ha, by simp [hap]⟩, hai⟩
  · intro actors player st himp
    exact enemyTurnsGo_all_impossible perform hasAi himp _ st
  · intro player a st msg hap hai hperf
    simp [handle_enemy_turns, List.filter, hap, enemyTurnsGo, hai, actOnce, hperf]
  · intro player a rest st hap hperf
    by_cases h : hasAi a = true
    · simp [handle_enemy_turns, List.filter_cons, hap, enemyTurnsGo, h, actOnce, hperf]
    · simp [handle_enemy_turns, List.filter_cons, hap, enemyTurnsGo, h]

/-- Witness for `handle_enemy_turns_spec`: a single acting entity whose
action always reports the no-op condition leaves the cycle successful and
the state unchanged. -/
theorem handle_enemy_turns_witness :
    handle_enemy_turns (σ := Nat) (fun _ _ => .error .impossible) (fun _ => true) 0 [1] 7 =
      .ok 7 :=
  (handle_enemy_turns_spec (fun _ _ => .error .impossible) (fun _ => true)).2.1 [1] 0 7
    (fun _ _ => rfl)

theorem randint_bounds (a b : Int) (r : Nat) (v : Int) (h : randint a b r = some v) :
    a ≤ v ∧ v ≤ b := by
  unfold randint at h
  split at h
  case isTrue hab =>
    have h1 : 0 ≤ (r : Int) % (b - a + 1) := Int.emod_nonneg _ (by omega)
    have h2 : (r : Int) % (b - a + 1) < b - a + 1 := Int.emod_lt_of_pos _ (by omega)
    obtain rfl : a + (r : Int) % (b - a + 1) = v := by
      injection h
    omega
  case isFalse => cases h

theorem randint_hit (a b v : Int) (hav : a ≤ v) (hvb : v ≤ b) :
    randint a b (v - a).toNat = some v := by
  unfold randint
  rw [if_pos (by omega : a ≤ b)]
  have hcast : (((v - a).toNat : Int)) = v - a := by omega
  rw [hcast, Int.emod_eq_of_lt (by omega) (by omega)]
  congr 1
  omega

/-- C6 (amended): each spawn attempt of `place_entities` draws its
coordinate uniformly from the interior of the room's bounding box
(`randint` over `[x1+1, x2-1] × [y1+1, y2-1]`, which coincides with the
room's interior for rectangular rooms but not for round shapes); the entity
is spawned there only when no already-placed entity occupies that exact
coordinate, a collision silently drops the attempt with no retry and leaves
the entity list unchanged, so the number actually placed can be smaller
than the number drawn and earlier entities are always preserved. -/
theorem place_entities_spawn_spec (room : Room) (pp : Int × Int) :
    (∀ (a b : Int) (r : Nat) (v : Int), randint a b r = some v → a ≤ v ∧ v ≤ b) ∧
    (∀ a b v : Int, a ≤ v → v ≤ b → randint a b (v - a).toNat = some v) ∧
    (∀ (t : Template) (rest : List Template) (spawned : List Placed) (rng : Rng) (x y : Int),
      randint (room.x1 + 1) (room.x2 - 1) (rngNext rng).1 = some x →
      randint (room.y1 + 1) (room.y2 - 1) (rngNext (rngNext rng).2).1 = some y →
      ((pp = (x, y) ∨ ∃ e ∈ spawned, e.x = x ∧ e.y = y) →
        spawnLoop room pp (t :: rest) spawned rng =
          spawnLoop room pp rest spawned (rngNext (rngNext rng).2).2) ∧
      (¬(pp = (x, y) ∨ ∃ e ∈ spawned, e.x = x ∧ e.y = y) →
        spawnLoop room pp (t :: rest) spawned rng =
          spawnLoop room pp rest (spawned ++ [⟨t, x, y⟩]) (rngNext (rngNext rng).2).2)) ∧
    (∀ (toPlace : List Template) (spawned : List Placed) (rng : Rng) (out : List Placed)
        (g : Rng), spawnLoop room pp toPlace spawned rng = some (out, g) →
      out.length ≤ spawned.length + toPlace.length ∧ spawned <+: out) := by
  refine ⟨randint_bounds, randint_hit, ?_, ?_⟩
  · intro t rest spawned rng x y hx hy
    constructor
    · intro hocc
      simp only [spawnLoop]
      rw [hx, hy]
      simp only [Option.some_bind]
      rw [if_pos hocc]
    · intro hfree
      simp only [spawnLoop]
      rw [hx, hy]
      simp only [Option.some_bind]
      rw [if_neg hfree]
  · intro toPlace
    induction toPlace with
    | nil =>
      intro spawned rng out g h
      simp only [spawnLoop, Option.some.injEq, Prod.mk.injEq] at h
      obtain ⟨rfl, rfl⟩ := h
      simpa using List.prefix_refl out
    | cons t rest ih =>
      intro spawned rng out g h
      simp only [spawnLoop] at h
      cases hx : randint (room.x1 + 1) (room.x2 - 1) (rngNext rng).1 with
      | none =>
        rw [hx] at h
        cases h
      | some x =>
        rw [hx] at h
        simp only [Option.some_bind] at h
        cases hy : randint (room.y1 + 1) (room.y2 - 1) (rngNext (rngNext rng).2).1 with
        | none => rw [hy] at h; cases h
        | some y =>
          rw [hy] at h
          simp only [Option.some_bind] at h
          by_cases hocc : pp = (x, y) ∨ ∃ e ∈ spawned, e.x = x ∧ e.y = y
          · rw [if_pos hocc] at h
            obtain ⟨hlen, hpre⟩ := ih _ _ _ _ h
            exact ⟨by simp only [List.length_cons]; omega, hpre⟩
          · rw [if_neg hocc] at h
            obtain ⟨hlen, hpre⟩ := ih _ _ _ _ h
            refine ⟨?_, (List.prefix_append _ _).trans hpre⟩
            simp only [List.length_append, List.length_cons, List.length_nil] at hlen ⊢
            omega

/-- C6 counterexample: for the ring room `RingRoom(5, 5, 4, inner_radius=2)`
the spawn coordinate is drawn from the bounding-box interior, which
contains the ring's excluded core: with draws `[3, 3]` the attempt lands on
the center `(5, 5)` and, being unoccupied, an entity is actually spawned at
a coordinate that is not in the room's interior enumeration at all. -/
theorem place_entities_spawn_cex :
    spawnLoop (Room.ring 5 5 4 2) (0, 0) [Template.orc] [] [3, 3] =
      some ([⟨Template.orc, 5, 5⟩], []) ∧
    (5, 5) ∉ (Room.ring 5 5 4 2).inner := by
  decide

/-- Witness for `place_entities_spawn_spec`: a completed spawn loop placed
no more entities than were drawn and kept the earlier list as a prefix. -/
theorem place_entities_spawn_witness :
    ([⟨Template.orc, 5, 5⟩] : List Placed).length ≤
        ([] : List Placed).length + [Template.orc].length ∧
      ([] : List Placed) <+: [⟨Template.orc, 5, 5⟩] :=
  (place_entities_spawn_spec (Room.ring 5 5 4 2) (0, 0)).2.2.2 [Template.orc] [] [3, 3]
    [⟨Template.orc, 5, 5⟩] [] (by decide)

theorem intersects_symm (a b : Room) : a.intersects b = b.intersects a := by
  have h : (a.intersects b = true) ↔ (b.intersects a = true) := by
    simp only [Room.intersects, Bool.and_eq_true, decide_eq_true_eq, ge_iff_le]
    omega
  cases hx : a.intersects b <;> cases hy : b.intersects a <;> simp_all

theorem tunnelPhase_none (playerSpot : Room → Int × Int) (new_room : Room) (st : GenState)
    (tiles1 : Int × Int → Tile) (writes1 : List (Int × Int))
    (h : st.rooms.getLast? = none) :
    tunnelPhase playerSpot new_room st tiles1 writes1 =
      { st with tiles := tiles1, writes := writes1, playerPos := playerSpot new_room } := by
  unfold tunnelPhase
  rw [h]

theorem tunnelPhase_some (playerSpot : Room → Int × Int) (new_room : Room) (st : GenState)
    (tiles1 : Int × Int → Tile) (writes1 : List (Int × Int)) (prev : Room)
    (h : st.rooms.getLast? = some prev) :
    tunnelPhase playerSpot new_room st tiles1 writes1 =
      { st with
        tiles := writeTiles tiles1 (tunnel_between (decide ((rngNext st.rng).1 % 2 = 0))
            prev.center new_room.center) Tile.floor
        writes := writes1 ++ tunnel_between (decide ((rngNext st.rng).1 % 2 = 0))
            prev.center new_room.center
        center_of_last_room := new_room.center
        rng := (rngNext st.rng).2 } := by
  unfold tunnelPhase
  rw [h]

theorem tunnelPhase_rooms (playerSpot : Room → Int × Int) (new_room : Room) (st : GenState)
    (tiles1 : Int × Int → Tile) (writes1 : List (Int × Int)) :
    (tunnelPhase playerSpot new_room st tiles1 writes1).rooms = st.rooms := by
  unfold tunnelPhase
  cases st.rooms.getLast? <;> rfl

/-- Full characterization of a successful acceptance in terms of the
post-tunnel state. -/
theorem acceptRoom_some_eq (playerSpot : Room → Int × Int) (floor : Int) (new_room : Room)
    (st st' : GenState) (h : acceptRoom playerSpot floor new_room st = some st') :
    ∃ eg : List Placed × Rng,
      st' = { tunnelPhase playerSpot new_room st
          (writeTiles st.tiles new_room.inner Tile.floor) (st.writes ++ new_room.inner) with
        entities := eg.1
        rng := eg.2
        tiles := writeTiles (tunnelPhase playerSpot new_room st
            (writeTiles st.tiles new_room.inner Tile.floor)
            (st.writes ++ new_room.inner)).tiles
          [(tunnelPhase playerSpot new_room st (writeTiles st.tiles new_room.inner Tile.floor)
              (st.writes ++ new_room.inner)).center_of_last_room] Tile.downStairs
        writes := (tunnelPhase playerSpot new_room st
            (writeTiles st.tiles new_room.inner Tile.floor)
            (st.writes ++ new_room.inner)).writes ++
          [(tunnelPhase playerSpot new_room st (writeTiles st.tiles new_room.inner Tile.floor)
              (st.writes ++ new_room.inner)).center_of_last_room]
        downstairs_location := (tunnelPhase playerSpot new_room st
            (writeTiles st.tiles new_room.inner Tile.floor)
            (st.writes ++ new_room.inner)).center_of_last_room
        rooms := (tunnelPhase playerSpot new_room st
            (writeTiles st.tiles new_room.inner Tile.floor)
            (st.writes ++ new_room.inner)).rooms ++ [new_room] } := by
  simp only [acceptRoom, Option.bind_eq_some, Option.some.injEq] at h
  obtain ⟨eg, hpe, rfl⟩ := h
  exact ⟨eg, rfl⟩

theorem acceptRoom_rooms (playerSpot : Room → Int × Int) (floor : Int) (new_room : Room)
    (st st' : GenState) (h : acceptRoom playerSpot floor new_room st = some st') :
    st'.rooms = st.rooms ++ [new_room] := by
  obtain ⟨eg, rfl⟩ := acceptRoom_some_eq _ _ _ _ _ h
  simp [tunnelPhase_rooms]

theorem genStep_pairwise (draw : Rng → Option (Room × Rng)) (playerSpot : Room → Int × Int)
    (floor : Int) (st st' : GenState) (h : genStep draw playerSpot floor st = some st')
    (hp : st.rooms.Pairwise fun a b => a.intersects b = false) :
    st'.rooms.Pairwise fun a b => a.intersects b = false := by
  simp only [genStep, Option.bind_eq_some] at h
  obtain ⟨rg, hd, htry⟩ := h
  unfold tryRoom at htry
  split at htry
  case isTrue => cases htry; exact hp
  case isFalse hint =>
    rw [acceptRoom_rooms _ _ _ _ _ htry, List.pairwise_append]
    refine ⟨hp, List.pairwise_singleton _ _, ?_⟩
    intro a ha b hb
    rw [List.mem_singleton] at hb
    subst hb
    have hall : rg.1.intersects a = false := by
      cases hmem : rg.1.intersects a with
      | false => rfl
      | true => exact absurd (List.any_eq_true.mpr ⟨a, ha, hmem⟩) hint
    rw [intersects_symm]
    exact hall

theorem genLoop_pairwise (draw : Rng → Option (Room × Rng)) (playerSpot : Room → Int × Int)
    (floor : Int) :
    ∀ (n : Nat) (st st' : GenState), genLoop draw playerSpot floor n st = some st' →
      st.rooms.Pairwise (fun a b => a.intersects b = false) →
      st'.rooms.Pairwise fun a b => a.intersects b = false := by
  intro n
  induction n with
  | zero => intro st st' h hp; cases h; exact hp
  | succ n ih =>
    intro st st' h hp
    simp only [genLoop, Option.bind_eq_some] at h
    obtain ⟨st1, hstep, hrest⟩ := h
    exact ih _ _ hrest (genStep_pairwise _ _ _ _ _ hstep hp)

/-- C2: in every level produced by `generate_dungeon` and by the
shape-variant `test_dungeon`, any two distinct accepted rooms have
non-overlapping inclusive bounding boxes: `intersects` returns false on the
pair (in both orders, since the test is symmetric). -/
theorem dungeon_rooms_disjoint (max_rooms : Nat) (room_min_size room_max_size : Int)
    (map_width map_height floor : Int) (p0 : Int × Int) (rng : Rng) (st st' : GenState) :
    (generate_dungeon max_rooms room_min_size room_max_size map_width map_height floor
        p0 rng = some st →
      ∀ a ∈ st.rooms, ∀ b ∈ st.rooms, a ≠ b → a.intersects b = false) ∧
    (test_dungeon max_rooms room_min_size room_max_size map_width map_height floor
        p0 rng = some st' →
      ∀ a ∈ st'.rooms, ∀ b ∈ st'.rooms, a ≠ b → a.intersects b = false) := by
  have hsym : Symmetric fun a b : Room => a.intersects b = false := by
    intro a b hab
    rwa [intersects_symm]
  constructor
  · intro h
    exact (genLoop_pairwise _ _ _ _ _ _ h (by simp [initialState])).forall hsym
  · intro h
    exact (genLoop_pairwise _ _ _ _ _ _ h (by simp [initialState])).forall hsym

/-- Witness for `dungeon_rooms_disjoint` at a concrete two-room run. -/
theorem dungeon_rooms_disjoint_witness :
    ∃ st, generate_dungeon 2 3 3 20 20 0 (5, 5) [0, 0, 0, 0, 0, 0, 0, 0, 10, 0, 0, 0, 0] =
        some st ∧ ∀ a ∈ st.rooms, ∀ b ∈ st.rooms, a ≠ b → a.intersects b = false :=
  ⟨_, rfl,
    (dungeon_rooms_disjoint 2 3 3 20 20 0 (5, 5) [0, 0, 0, 0, 0, 0, 0, 0, 10, 0, 0, 0, 0]
      _ (initialState (0, 0) [])).1 rfl⟩

theorem acceptRoom_stairsInv (playerSpot : Room → Int × Int) (floor : Int) (new_room : Room)
    (st st' : GenState) (h : acceptRoom playerSpot floor new_room st = some st')
    (hinv : stairsInv st) : stairsInv st' := by
  obtain ⟨eg, rfl⟩ := acceptRoom_some_eq _ _ _ _ _ h
  cases hrl : st.rooms.getLast? with
  | none =>
    have hnil : st.rooms = [] := List.getLast?_eq_none_iff.mp hrl
    obtain ⟨hds, hc, hent, htl⟩ := hinv.1 hnil
    rw [tunnelPhase_none _ _ _ _ _ hrl]
    refine ⟨?_, ?_, ?_⟩
    · intro hcontra
      simp at hcontra
    · intro _
      exact ⟨hc, hc⟩
    · intro hlen
      rw [hnil] at hlen
      simp at hlen
  | some prev =>
    have hne : st.rooms ≠ [] := by
      intro hc
      rw [hc] at hrl
      cases hrl
    rw [tunnelPhase_some _ _ _ _ _ _ hrl]
    refine ⟨?_, ?_, ?_⟩
    · intro hcontra
      simp at hcontra
    · intro hlen
      exfalso
      have h1 : st.rooms = [] := by simpa using hlen
      exact hne h1
    · intro _
      refine ⟨new_room, ?_, rfl, rfl, ?_⟩
      · simp [List.getLast?_concat]
      · simp [writeTiles]

theorem genStep_stairsInv (draw : Rng → Option (Room × Rng)) (playerSpot : Room → Int × Int)
    (floor : Int) (st st' : GenState) (h : genStep draw playerSpot floor st = some st')
    (hinv : stairsInv st) : stairsInv st' := by
  simp only [genStep, Option.bind_eq_some] at h
  obtain ⟨rg, hd, htry⟩ := h
  unfold tryRoom at htry
  split at htry
  case isTrue => cases htry; exact hinv
  case isFalse => exact acceptRoom_stairsInv _ _ _ _ _ htry hinv

theorem genLoop_stairsInv (draw : Rng → Option (Room × Rng)) (playerSpot : Room → Int × Int)
    (floor : Int) :
    ∀ (n : Nat) (st st' : GenState), genLoop draw playerSpot floor n st = some st' →
      stairsInv st → stairsInv st' := by
  intro n
  induction n with
  | zero => intro st st' h hinv; cases h; exact hinv
  | succ n ih =>
    intro st st' h hinv
    simp only [genLoop, Option.bind_eq_some] at h
    obtain ⟨st1, hstep, hrest⟩ := h
    exact ih _ _ hrest (genStep_stairsInv _ _ _ _ _ hstep hinv)

/-- C3: for every run of `generate_dungeon`, with two or more accepted
rooms the level's `downstairs_location` is the final accepted room's center
and the tile there is the down-stairs tile; with exactly one accepted room
`downstairs_location` is `(0, 0)` (the stair candidate is only updated from
the second accepted room on); and with `max_rooms = 0` the returned level
is the untouched initial map: only the controlled agent, all tiles wall, no
stairs. -/
theorem generate_dungeon_stairs (max_rooms : Nat) (room_min_size room_max_size : Int)
    (map_width map_height floor : Int) (p0 : Int × Int) (rng : Rng) (st : GenState)
    (h : generate_dungeon max_rooms room_min_size room_max_size map_width map_height floor
      p0 rng = some st) :
    (max_rooms = 0 → st = initialState p0 rng ∧ st.entities = [] ∧
      st.downstairs_location = (0, 0) ∧ ∀ p, st.tiles p = Tile.wall) ∧
    (st.rooms.length = 1 → st.downstairs_location = (0, 0)) ∧
    (2 ≤ st.rooms.length → ∃ last, st.rooms.getLast? = some last ∧
      st.downstairs_location = last.center ∧ st.tiles last.center = Tile.downStairs) := by
  have hinv : stairsInv st := by
    refine genLoop_stairsInv _ _ _ _ _ _ h ?_
    refine ⟨fun _ => ⟨rfl, rfl, rfl, fun p => rfl⟩, ?_, ?_⟩
    · intro hc
      simp [initialState] at hc
    · intro hc
      simp [initialState] at hc
  refine ⟨?_, fun h1 => (hinv.2.1 h1).1, ?_⟩
  · rintro rfl
    unfold generate_dungeon genLoop at h
    cases h
    exact ⟨rfl, rfl, rfl, fun p => rfl⟩
  · intro h2
    obtain ⟨last, hgl, hc, hds, htl⟩ := hinv.2.2 h2
    exact ⟨last, hgl, hds, htl⟩

theorem intRange_mem (a b v : Int) : v ∈ intRange a b ↔ a ≤ v ∧ v ≤ b := by
  simp only [intRange, List.mem_map, List.mem_range]
  constructor
  · rintro ⟨i, hi, rfl⟩
    omega
  · rintro ⟨h1, h2⟩
    exact ⟨(v - a).toNat, by omega, by omega⟩

theorem rectInner_bounds (x1 y1 x2 y2 : Int) (p : Int × Int)
    (hp : p ∈ rectInner x1 y1 x2 y2) :
    x1 + 1 ≤ p.1 ∧ p.1 ≤ x2 - 1 ∧ y1 + 1 ≤ p.2 ∧ p.2 ≤ y2 - 1 := by
  simp only [rectInner, List.mem_flatMap, List.mem_map] at hp
  obtain ⟨px, hpx, py, hpy, rfl⟩ := hp
  rw [intRange_mem] at hpx hpy
  exact ⟨hpx.1, hpx.2, hpy.1, hpy.2⟩

theorem sq_lt_bound (o r : Int) (h : o ^ 2 < r ^ 2) (hr : 0 ≤ r) : -r < o ∧ o < r := by
  constructor
  · by_contra hc
    push_neg at hc
    nlinarith [mul_nonneg (by linarith : (0 : Int) ≤ -r - o) (by linarith : (0 : Int) ≤ -o + r),
      mul_nonneg (by linarith : (0 : Int) ≤ -r - o) (by linarith : (0 : Int) ≤ -o - r)]
  · by_contra hc
    push_neg at hc
    nlinarith [mul_nonneg (by linarith : (0 : Int) ≤ o - r) (by linarith : (0 : Int) ≤ o + r)]

theorem circInner_bounds (cx cy r : Int) (t : Int × Int) (ht : t ∈ circInner cx cy r) :
    cx - r < t.1 ∧ t.1 < cx + r ∧ cy - r < t.2 ∧ t.2 < cy + r ∧ 0 < r := by
  simp only [circInner, List.mem_flatMap, List.mem_filterMap] at ht
  obtain ⟨ox, hox, oy, hoy, hif⟩ := ht
  rw [intRange_mem] at hox hoy
  by_cases hc : ox ^ 2 + oy ^ 2 < r ^ 2
  · rw [if_pos hc] at hif
    cases hif
    have hr0 : 0 ≤ r := by omega
    have h1 := sq_lt_bound ox r (by nlinarith [sq_nonneg oy]) hr0
    have h2 := sq_lt_bound oy r (by nlinarith [sq_nonneg ox]) hr0
    have hrpos : 0 < r := by
      by_contra hle
      push_neg at hle
      have hz : r = 0 := by omega
      rw [hz] at hc
      nlinarith [sq_nonneg ox, sq_nonneg oy]
    exact ⟨by omega, by omega, by omega, by omega, hrpos⟩
  · rw [if_neg hc] at hif
    cases hif

theorem ringInner_subset (cx cy r ir : Int) (t : Int × Int)
    (ht : t ∈ ringInner cx cy r ir) : t ∈ circInner cx cy r :=
  (List.mem_filter.mp ht).1

theorem roomInner_bounds (W H : Int) (room : Room) (hok : roomOK W H room) :
    ∀ p ∈ room.inner, inBounds W H p := by
  intro p hp
  cases room with
  | rect x1 y1 x2 y2 =>
    obtain ⟨h1, h2, h3, h4, h5, h6⟩ := hok
    have hb := rectInner_bounds _ _ _ _ _ hp
    exact ⟨by omega, by omega, by omega, by omega⟩
  | circ x y radius =>
    obtain ⟨h1, h2, h3, h4, h5⟩ := hok
    have hb := circInner_bounds _ _ _ _ hp
    exact ⟨by omega, by omega, by omega, by omega⟩
  | ring x y radius ir =>
    obtain ⟨h1, h2, h3, h4, h5⟩ := hok
    have hb := circInner_bounds _ _ _ _ (ringInner_subset _ _ _ _ _ hp)
    exact ⟨by omega, by omega, by omega, by omega⟩

theorem center_inBounds (W H : Int) (room : Room) (hok : roomOK W H room) :
    inBounds W H room.center := by
  cases room with
  | rect x1 y1 x2 y2 =>
    obtain ⟨h1, h2, h3, h4, h5, h6⟩ := hok
    refine ⟨?_, ?_, ?_, ?_⟩
    · show 0 ≤ (x1 + x2).tdiv 2
      rw [Int.tdiv_eq_ediv (by omega) (by omega)]
      omega
    · show (x1 + x2).tdiv 2 < W
      rw [Int.tdiv_eq_ediv (by omega) (by omega)]
      omega
    · show 0 ≤ (y1 + y2).tdiv 2
      rw [Int.tdiv_eq_ediv (by omega) (by omega)]
      omega
    · show (y1 + y2).tdiv 2 < H
      rw [Int.tdiv_eq_ediv (by omega) (by omega)]
      omega
  | circ x y radius =>
    obtain ⟨h1, h2, h3, h4, h5⟩ := hok
    refine ⟨?_, ?_, ?_, ?_⟩
    · show (0 : Int) ≤ x
      omega
    · show x < W
      omega
    · show (0 : Int) ≤ y
      omega
    · show y < H
      omega
  | ring x y radius ir =>
    obtain ⟨h1, h2, h3, h4, h5⟩ := hok
    refine ⟨?_, ?_, ?_, ?_⟩
    · show (0 : Int) ≤ x
      omega
    · show x < W
      omega
    · show (0 : Int) ≤ y
      omega
    · show y < H
      omega

/-- Every point of the Bresenham walk is `i` driving steps and `v`
secondary steps from the start, with the error invariant holding there. -/
theorem bresLoop_mem (s₁ s₂ a₁ a₂ : Int) (ha₂ : 0 ≤ a₂) (h21 : a₂ ≤ a₁) :
    ∀ (n : Nat) (x y e : Int), 0 ≤ e → e < 2 * a₁ →
      ∀ r ∈ bresLoop s₁ s₂ a₁ a₂ n x y e,
        ∃ i v : Nat, i ≤ n ∧ r = (x + i * s₁, y + v * s₂) ∧
          0 ≤ e - 2 * a₂ * i + 2 * a₁ * v ∧ e - 2 * a₂ * i + 2 * a₁ * v < 2 * a₁ := by
  intro n
  induction n with
  | zero =>
    intro x y e he0 he1 r hr
    simp only [bresLoop, List.mem_singleton] at hr
    subst hr
    exact ⟨0, 0, Nat.le_refl 0, by simp, by simpa using he0, by simpa using he1⟩
  | succ n ih =>
    intro x y e he0 he1 r hr
    simp only [bresLoop, List.mem_cons] at hr
    rcases hr with rfl | hr
    · exact ⟨0, 0, Nat.zero_le _, by simp, by simpa using he0, by simpa using he1⟩
    · by_cases h : e - 2 * a₂ < 0
      · rw [if_pos h] at hr
        obtain ⟨i, v, hi, heq, hb0, hb1⟩ := ih (x + s₁) (y + s₂) _ (by omega) (by omega) r hr
        refine ⟨i + 1, v + 1, by omega, ?_, ?_, ?_⟩
        · rw [heq]
          congr 1 <;> push_cast <;> ring
        · push_cast
          push_cast at hb0
          linarith
        · push_cast
          push_cast at hb1
          linarith
      · rw [if_neg h] at hr
        obtain ⟨i, v, hi, heq, hb0, hb1⟩ := ih (x + s₁) y _ (by omega) (by omega) r hr
        refine ⟨i + 1, v, by omega, ?_, ?_, ?_⟩
        · rw [heq]
          congr 1 <;> push_cast <;> ring
        · push_cast
          push_cast at hb0
          linarith
        · push_cast
          push_cast at hb1
          linarith

/-- A full Bresenham walk stays inside the axis-aligned box spanned by its
endpoints. -/
theorem bresLoop_coord_bounds (d₁ d₂ : Int) (h : d₂.natAbs ≤ d₁.natAbs) (x y : Int) :
    ∀ r ∈ bresLoop d₁.sign d₂.sign d₁.natAbs d₂.natAbs d₁.natAbs x y d₁.natAbs,
      min x (x + d₁) ≤ r.1 ∧ r.1 ≤ max x (x + d₁) ∧
        min y (y + d₂) ≤ r.2 ∧ r.2 ≤ max y (y + d₂) := by
  intro r hr
  rcases Nat.eq_zero_or_pos d₁.natAbs with hz | hpos
  · have hd1 : d₁ = 0 := by omega
    have hd2 : d₂ = 0 := by omega
    rw [hz] at hr
    simp only [bresLoop, List.mem_singleton] at hr
    subst hr
    refine ⟨?_, ?_, ?_, ?_⟩ <;> simp [hd1, hd2]
  · obtain ⟨i, v, hi, heq, hb0, hb1⟩ := bresLoop_mem d₁.sign d₂.sign _ _ (by omega) (by omega)
      d₁.natAbs x y d₁.natAbs (by omega) (by omega) r hr
    have hA : (0 : Int) < d₁.natAbs := by omega
    have hia : (i : Int) ≤ (d₁.natAbs : Int) := by exact_mod_cast hi
    have hvle : (v : Int) ≤ (d₂.natAbs : Int) := by
      by_contra hc
      push_neg at hc
      have h1 : 2 * (d₂.natAbs : Int) * i ≤ 2 * (d₂.natAbs : Int) * (d₁.natAbs : Int) :=
        mul_le_mul_of_nonneg_left hia (by positivity)
      have h2 : (d₁.natAbs : Int) * (2 * v) < (d₁.natAbs : Int) * (1 + 2 * d₂.natAbs) := by
        nlinarith
      have h4 : (2 : Int) * v < 1 + 2 * d₂.natAbs := lt_of_mul_lt_mul_left h2 hA.le
      omega
    obtain ⟨hr1, hr2⟩ : r.1 = x + i * d₁.sign ∧ r.2 = y + v * d₂.sign := by
      rw [heq]
      exact ⟨rfl, rfl⟩
    rw [hr1, hr2]
    have hxb : min x (x + d₁) ≤ x + i * d₁.sign ∧ x + i * d₁.sign ≤ max x (x + d₁) := by
      rcases Int.lt_trichotomy d₁ 0 with hneg | hzero | hpos'
      · rw [Int.sign_eq_neg_one_of_neg hneg]
        constructor <;> omega
      · exact absurd hzero (by omega)
      · rw [Int.sign_eq_one_of_pos hpos']
        constructor <;> omega
    have hyb : min y (y + d₂) ≤ y + v * d₂.sign ∧ y + v * d₂.sign ≤ max y (y + d₂) := by
      rcases Int.lt_trichotomy d₂ 0 with hneg | hzero | hpos'
      · rw [Int.sign_eq_neg_one_of_neg hneg]
        constructor <;> omega
      · rw [hzero, Int.sign_zero]
        constructor <;> omega
      · rw [Int.sign_eq_one_of_pos hpos']
        constructor <;> omega
    exact ⟨hxb.1, hxb.2, hyb.1, hyb.2⟩

theorem bresenham_box (p q : Int × Int) :
    ∀ r ∈ bresenham p q, min p.1 q.1 ≤ r.1 ∧ r.1 ≤ max p.1 q.1 ∧
      min p.2 q.2 ≤ r.2 ∧ r.2 ≤ max p.2 q.2 := by
  intro r hr
  simp only [bresenham] at hr
  split at hr
  case isTrue hle =>
    have hb := bresLoop_coord_bounds (q.1 - p.1) (q.2 - p.2) hle p.1 p.2 r hr
    have e1 : p.1 + (q.1 - p.1) = q.1 := by ring
    have e2 : p.2 + (q.2 - p.2) = q.2 := by ring
    rw [e1, e2] at hb
    exact hb
  case isFalse hgt =>
    rw [List.mem_map] at hr
    obtain ⟨s, hs, rfl⟩ := hr
    have hb := bresLoop_coord_bounds (q.2 - p.2) (q.1 - p.1) (by omega) p.2 p.1 s hs
    have e1 : p.1 + (q.1 - p.1) = q.1 := by ring
    have e2 : p.2 + (q.2 - p.2) = q.2 := by ring
    rw [e1, e2] at hb
    exact ⟨hb.2.2.1, hb.2.2.2, hb.1, hb.2.1⟩

theorem tunnel_between_box (coin : Bool) (s f : Int × Int) :
    ∀ r ∈ tunnel_between coin s f,
      min s.1 f.1 ≤ r.1 ∧ r.1 ≤ max s.1 f.1 ∧ min s.2 f.2 ≤ r.2 ∧ r.2 ≤ max s.2 f.2 := by
  intro r hr
  cases coin with
  | true =>
    rw [show tunnel_between true s f =
      bresenham s (f.1, s.2) ++ bresenham (f.1, s.2) f from rfl, List.mem_append] at hr
    rcases hr with hr | hr
    · obtain ⟨b1, b2, b3, b4⟩ := bresenham_box s (f.1, s.2) r hr
      simp only [] at b1 b2 b3 b4
      refine ⟨by omega, by omega, by omega, by omega⟩
    · obtain ⟨b1, b2, b3, b4⟩ := bresenham_box (f.1, s.2) f r hr
      simp only [] at b1 b2 b3 b4
      refine ⟨by omega, by omega, by omega, by omega⟩
  | false =>
    rw [show tunnel_between false s f =
      bresenham s (s.1, f.2) ++ bresenham (s.1, f.2) f from rfl, List.mem_append] at hr
    rcases hr with hr | hr
    · obtain ⟨b1, b2, b3, b4⟩ := bresenham_box s (s.1, f.2) r hr
      simp only [] at b1 b2 b3 b4
      refine ⟨by omega, by omega, by omega, by omega⟩
    · obtain ⟨b1, b2, b3, b4⟩ := bresenham_box (s.1, f.2) f r hr
      simp only [] at b1 b2 b3 b4
      refine ⟨by omega, by omega, by omega, by omega⟩

theorem drawRectRoom_ok (mins maxs W H : Int) (rng : Rng) (room : Room) (g : Rng)
    (h : drawRectRoom mins maxs W H rng = some (room, g)) (h0 : 0 ≤ mins)
    (hW : maxs ≤ W - 2) (hH : maxs ≤ H - 2) : roomOK W H room := by
  simp only [drawRectRoom, Option.bind_eq_some, Option.some.injEq, Prod.mk.injEq] at h
  obtain ⟨w, hw, ht, hh, x, hx, y, hy, rfl, rfl⟩ := h
  have hwb := randint_bounds _ _ _ _ hw
  have hhb := randint_bounds _ _ _ _ hh
  have hxb := randint_bounds _ _ _ _ hx
  have hyb := randint_bounds _ _ _ _ hy
  exact ⟨by omega, by omega, by omega, by omega, by omega, by omega⟩

theorem drawTestRoom_ok (mins maxs W H : Int) (rng : Rng) (room : Room) (g : Rng)
    (h : drawTestRoom mins maxs W H rng = some (room, g)) (h2 : 2 ≤ mins)
    (hmm : mins ≤ maxs) (hW : maxs ≤ W - 2) (hH : maxs ≤ H - 2) : roomOK W H room := by
  simp only [drawTestRoom] at h
  split at h
  · exact drawRectRoom_ok _ _ _ _ _ _ _ h (by omega) hW hH
  · split at h
    · simp only [Option.bind_eq_some, Option.some.injEq, Prod.mk.injEq] at h
      obtain ⟨radius, hrad, x, hx, y, hy, rfl, rfl⟩ := h
      have hrb := randint_bounds _ _ _ _ hrad
      have hxb := randint_bounds _ _ _ _ hx
      have hyb := randint_bounds _ _ _ _ hy
      exact ⟨by omega, by omega, by omega, by omega, by omega⟩
    · simp only [Option.bind_eq_some, Option.some.injEq, Prod.mk.injEq] at h
      obtain ⟨radius, hrad, ir, hir, x, hx, y, hy, rfl, rfl⟩ := h
      have hrb := randint_bounds _ _ _ _ hrad
      have hxb := randint_bounds _ _ _ _ hx
      have hyb := randint_bounds _ _ _ _ hy
      exact ⟨by omega, by omega, by omega, by omega, by omega⟩

theorem acceptRoom_boundsInv (W H : Int) (playerSpot : Room → Int × Int) (floor : Int)
    (new_room : Room) (st st' : GenState)
    (h : acceptRoom playerSpot floor new_room st = some st') (hok : roomOK W H new_room)
    (hinv : boundsInv W H st) : boundsInv W H st' := by
  obtain ⟨hw, hr, hc⟩ := hinv
  obtain ⟨eg, rfl⟩ := acceptRoom_some_eq _ _ _ _ _ h
  cases hrl : st.rooms.getLast? with
  | none =>
    rw [tunnelPhase_none _ _ _ _ _ hrl]
    refine ⟨?_, ?_, ?_⟩
    · intro p hp
      simp only [List.mem_append, List.mem_singleton] at hp
      rcases hp with (hp | hp) | hp
      · exact hw p hp
      · exact roomInner_bounds W H new_room hok p hp
      · subst hp
        exact hc
    · intro room hroom
      simp only [List.mem_append, List.mem_singleton] at hroom
      rcases hroom with hroom | hroom
      · exact hr room hroom
      · subst hroom
        exact hok
    · exact hc
  | some prev =>
    have hprevok := hr prev (List.mem_of_getLast?_eq_some hrl)
    have hnewc := center_inBounds W H new_room hok
    have hprevc := center_inBounds W H prev hprevok
    rw [tunnelPhase_some _ _ _ _ _ _ hrl]
    refine ⟨?_, ?_, ?_⟩
    · intro p hp
      simp only [List.mem_append, List.mem_singleton] at hp
      rcases hp with ((hp | hp) | hp) | hp
      · exact hw p hp
      · exact roomInner_bounds W H new_room hok p hp
      · obtain ⟨t1, t2, t3, t4⟩ := tunnel_between_box _ prev.center new_room.center p hp
        obtain ⟨c1, c2, c3, c4⟩ := hprevc
        obtain ⟨d1, d2, d3, d4⟩ := hnewc
        exact ⟨by omega, by omega, by omega, by omega⟩
      · subst hp
        exact hnewc
    · intro room hroom
      simp only [List.mem_append, List.mem_singleton] at hroom
      rcases hroom with hroom | hroom
      · exact hr room hroom
      · subst hroom
        exact hok
    · exact hnewc

theorem genStep_boundsInv (W H : Int) (draw : Rng → Option (Room × Rng))
    (playerSpot : Room → Int × Int) (floor : Int)
    (hdraw : ∀ rng room g, draw rng = some (room, g) → roomOK W H room)
    (st st' : GenState) (h : genStep draw playerSpot floor st = some st')
    (hinv : boundsInv W H st) : boundsInv W H st' := by
  simp only [genStep, Option.bind_eq_some] at h
  obtain ⟨rg, hd, htry⟩ := h
  unfold tryRoom at htry
  split at htry
  case isTrue => cases htry; exact hinv
  case isFalse =>
    exact acceptRoom_boundsInv W H _ _ _ _ _ htry (hdraw st.rng rg.1 rg.2 (by rw [hd])) hinv

theorem genLoop_boundsInv (W H : Int) (draw : Rng → Option (Room × Rng))
    (playerSpot : Room → Int × Int) (floor : Int)
    (hdraw : ∀ rng room g, draw rng = some (room, g) → roomOK W H room) :
    ∀ (n : Nat) (st st' : GenState), genLoop draw playerSpot floor n st = some st' →
      boundsInv W H st → boundsInv W H st' := by
  intro n
  induction n with
  | zero =>
    intro st st' h hinv
    cases h
    exact hinv
  | succ n ih =>
    intro st st' h hinv
    simp only [genLoop, Option.bind_eq_some] at h
    obtain ⟨st1, hstep, hrest⟩ := h
    exact ih _ _ hrest (genStep_boundsInv W H _ _ _ hdraw _ _ hstep hinv)

/-- C10 (amended): with feasible draws — sizes `2 ≤ room_min_size ≤
room_max_size ≤ map dimension - 2`, which in particular makes every drawn
radius at least 1 and at most half of each dimension — every tile
coordinate written during generation (room carving, tunnel carving and
stair placement, collected in the `writes` log) lies strictly inside the
grid, for `generate_dungeon` and for `test_dungeon` alike.  The claim as
stated also admits radius 0, for which the bound fails. -/
theorem generation_writes_in_bounds (max_rooms : Nat) (room_min_size room_max_size : Int)
    (W H floor : Int) (p0 : Int × Int) (rng : Rng) (st st' : GenState)
    (hmin : 2 ≤ room_min_size) (hmm : room_min_size ≤ room_max_size)
    (hW : room_max_size ≤ W - 2) (hH : room_max_size ≤ H - 2) :
    (generate_dungeon max_rooms room_min_size room_max_size W H floor p0 rng = some st →
      ∀ p ∈ st.writes, 0 ≤ p.1 ∧ p.1 < W ∧ 0 ≤ p.2 ∧ p.2 < H) ∧
    (test_dungeon max_rooms room_min_size room_max_size W H floor p0 rng = some st' →
      ∀ p ∈ st'.writes, 0 ≤ p.1 ∧ p.1 < W ∧ 0 ≤ p.2 ∧ p.2 < H) := by
  have hinit : boundsInv W H (initialState p0 rng) := by
    refine ⟨?_, ?_, ?_⟩
    · intro p hp
      simp [initialState] at hp
    · intro room hroom
      simp [initialState] at hroom
    · show inBounds W H (0, 0)
      exact ⟨by omega, by omega, by omega, by omega⟩
  constructor
  · intro h p hp
    have hinv := genLoop_boundsInv W H _ _ _
      (fun rng' room g hd => drawRectRoom_ok _ _ _ _ _ _ _ hd (by omega) hW hH)
      _ _ _ h hinit
    exact hinv.1 p hp
  · intro h p hp
    have hinv := genLoop_boundsInv W H _ _ _
      (fun rng' room g hd => drawTestRoom_ok _ _ _ _ _ _ _ hd hmin hmm hW hH)
      _ _ _ h hinit
    exact hinv.1 p hp

/-- C10 counterexample: with draws that are feasible in the claim's sense
(`room_max_size = 4 ≤ 10 - 2`; the drawn radius 0 is at most half of each
dimension), `test_dungeon` accepts a radius-0 circular room centered at
`x = map_width = 10`, and the tunnel carving and stair placement then write
at `(10, 5)`, outside the `10 × 10` grid. -/
theorem generation_writes_cex :
    ∃ st, test_dungeon 2 1 4 10 10 0 (0, 0) [0, 2, 2, 0, 0, 0, 0, 7, 0, 10, 5, 0, 0, 0] =
        some st ∧ (10, 5) ∈ st.writes ∧ ¬ ((10 : Int) < 10) :=
  ⟨_, rfl, by decide, by decide⟩

/-- Witness for `generation_writes_in_bounds` at a concrete two-room
`generate_dungeon` run on a 20 × 20 grid. -/
theorem generation_writes_witness :
    ∃ st, generate_dungeon 2 3 3 20 20 0 (5, 5) [0, 0, 0, 0, 0, 0, 0, 0, 10, 0, 0, 0, 0] =
        some st ∧ ∀ p ∈ st.writes, 0 ≤ p.1 ∧ p.1 < 20 ∧ 0 ≤ p.2 ∧ p.2 < 20 :=
  ⟨_, rfl,
    (generation_writes_in_bounds 2 3 3 20 20 0 (5, 5) [0, 0, 0, 0, 0, 0, 0, 0, 10, 0, 0, 0, 0]
      _ (initialState (0, 0) []) (by omega) (by omega) (by omega) (by omega)).1 rfl⟩

/-- Witness for `generate_dungeon_stairs` at a concrete two-room run: the
stairs sit at the final accepted room's center. -/
theorem generate_dungeon_stairs_witness :
    ∃ st, generate_dungeon 2 3 3 20 20 0 (5, 5) [0, 0, 0, 0, 0, 0, 0, 0, 10, 0, 0, 0, 0] =
        some st ∧ 2 ≤ st.rooms.length ∧ ∃ last, st.rooms.getLast? = some last ∧
          st.downstairs_location = last.center ∧ st.tiles last.center = Tile.downStairs :=
  ⟨_, rfl, by decide,
    (generate_dungeon_stairs 2 3 3 20 20 0 (5, 5) [0, 0, 0, 0, 0, 0, 0, 0, 10, 0, 0, 0, 0]
      _ rfl).2.2 (by decide)⟩

end Roguelike
